import Mathlib

set_option maxRecDepth 8000
set_option maxHeartbeats 2000000
set_option synthInstance.maxSize 2000
set_option synthInstance.maxHeartbeats 1000000

namespace Sudoku

/-! Shallow embedding of the MRV Sudoku solver from
`src/hooks/useSolverStateImmer.ts` (board utilities, constraint usage
tables, the MRV selector `selectMRV`, the backtracking generator `dfs`
inside `solveSudokuMRV`).  JavaScript arrays become lists, out-of-range
reads use the same falsy defaults the code relies on, and the generator
becomes a function returning the list of emitted steps, each paired with
the mutable state at the moment of emission, together with the final
board and the internal success flag. -/

/-- A Sudoku board: rows of characters, each a digit or a dot. -/
abbrev Board := List (List Char)

/-- Box id of a cell, from the source: floor(r/3)*3 + floor(c/3). -/
def boxId (r c : Nat) : Nat := r / 3 * 3 + c / 3

/-- Character test from the source: between the characters 1 and 9. -/
def isDigit (ch : Char) : Bool := decide (49 ≤ ch.toNat) && decide (ch.toNat ≤ 57)

/-- Read a board cell; out-of-range reads yield the empty marker. -/
def getCell (b : Board) (r c : Nat) : Char := (b.getD r []).getD c '.'

/-- Write a board cell (in-range writes only, as in the source). -/
def setCell (b : Board) (r c : Nat) (ch : Char) : Board :=
  b.set r ((b.getD r []).set c ch)

/-- One usage table: 9 rows of 10 booleans (index 0 unused). -/
abbrev UsageTable := List (List Bool)

/-- Read a usage entry; out-of-range reads are false. -/
def getU (t : UsageTable) (x d : Nat) : Bool := (t.getD x []).getD d false

/-- Write a usage entry. -/
def setU (t : UsageTable) (x d : Nat) (v : Bool) : UsageTable :=
  t.set x ((t.getD x []).set d v)

/-- The three constraint tables of the source. -/
structure ConstraintUsage where
  rows : UsageTable
  cols : UsageTable
  boxes : UsageTable
deriving DecidableEq, Repr

/-- All 81 cells in row-major order, as scanned by the source loops. -/
def allCells : List (Nat × Nat) :=
  (List.range 9).flatMap (fun r => (List.range 9).map (fun c => (r, c)))

/-- Digit char to number: charCodeAt(0) - 48. -/
def fromChar (ch : Char) : Nat := ch.toNat - 48

/-- Number to digit char: String(d). -/
def toChar (d : Nat) : Char := Char.ofNat (48 + d)

/-- A fresh 9 x 10 all-false table. -/
def emptyTable : UsageTable := List.replicate 9 (List.replicate 10 false)

/-- One iteration of the buildUsage scan. -/
def usageStep (b : Board) (u : ConstraintUsage) (rc : Nat × Nat) : ConstraintUsage :=
  let ch := getCell b rc.1 rc.2
  if isDigit ch then
    let d := fromChar ch
    ⟨setU u.rows rc.1 d true, setU u.cols rc.2 d true,
     setU u.boxes (boxId rc.1 rc.2) d true⟩
  else u

/-- buildUsage from the source: scan the board, set an entry per digit. -/
def buildUsage (b : Board) : ConstraintUsage :=
  allCells.foldl (usageStep b) ⟨emptyTable, emptyTable, emptyTable⟩

/-- canPlace from the source: digit absent from row, column and box. -/
def canPlace (rows cols boxes : UsageTable) (r c d : Nat) : Bool :=
  !(getU rows r d) && !(getU cols c d) && !(getU boxes (boxId r c) d)

/-- cloneBoard from the source: a deep copy (value identity here). -/
def cloneBoard (board : Board) : Board := board.map (fun row => row.map (fun ch => ch))

/-- The candidate digits of a cell, ascending, as built by the d = 1..9
loops of the source. -/
def candList (rows cols boxes : UsageTable) (r c : Nat) : List Nat :=
  (List.range' 1 9).filter (fun d => canPlace rows cols boxes r c d)

/-- One record of the MRV scan trace. -/
structure MRVScanItem where
  i : Nat
  r : Nat
  c : Nat
  count : Nat
  bestIndex : Nat
  bestCount : Nat
deriving DecidableEq, Repr

/-- Snapshot entry for one empty cell, as in the selectCell payload. -/
structure EmptyCellInfo where
  r : Nat
  c : Nat
  count : Nat
  filled : Bool
deriving DecidableEq, Repr

/-- The five step kinds of the step protocol. -/
inductive SolverStep where
  | selectCell (index r c : Nat) (candidates : List Nat)
      (empties : List EmptyCellInfo) (usage : ConstraintUsage)
      (scan : List MRVScanItem) (swap : Option (Nat × Nat))
  | tryDigit (r c d : Nat)
  | place (r c d : Nat)
  | backtrack (r c d : Nat)
  | solved
deriving DecidableEq, Repr

/-- The mutable state of one solve attempt: working board, the three
usage tables and the empties array. -/
structure SState where
  b : Board
  rows : UsageTable
  cols : UsageTable
  boxes : UsageTable
  empties : List (Nat × Nat)
deriving DecidableEq, Repr

instance : Inhabited SState := ⟨⟨[], [], [], [], []⟩⟩

instance : Inhabited MRVScanItem := ⟨⟨0, 0, 0, 0, 0, 0⟩⟩

instance : Inhabited SolverStep := ⟨SolverStep.solved⟩

/-- The scan loop of selectMRV over the indices k+1 .. end: track the
minimum, record every scanned cell, break once the running best count
hits exactly 1. -/
def scanLoop (st : SState) (idxs : List Nat) (best bestCnt : Nat)
    (scan : List MRVScanItem) : Nat × Nat × List MRVScanItem :=
  match idxs with
  | [] => (best, bestCnt, scan)
  | i :: rest =>
    let rc := st.empties.getD i (0, 0)
    let count := (candList st.rows st.cols st.boxes rc.1 rc.2).length
    let best' := if count < bestCnt then i else best
    let bestCnt' := if count < bestCnt then count else bestCnt
    let scan' := scan ++ [⟨i, rc.1, rc.2, count, best', bestCnt'⟩]
    if bestCnt' = 1 then (best', bestCnt', scan')
    else scanLoop st rest best' bestCnt' scan'

/-- The result record of selectMRV. -/
structure MRVResult where
  r : Nat
  c : Nat
  candidates : List Nat
  empties : List EmptyCellInfo
  usage : ConstraintUsage
  scan : List MRVScanItem
  swap : Option (Nat × Nat)
deriving DecidableEq, Repr

/-- The head evaluation plus (conditional) scan of selectMRV: the head
cell at k is evaluated first and recorded; the loop over k+1 .. end runs
only when the head count exceeds 1. -/
def mrvScanRes (st : SState) (k : Nat) : Nat × Nat × List MRVScanItem :=
  let rcK := st.empties.getD k (0, 0)
  let bestCnt0 := (candList st.rows st.cols st.boxes rcK.1 rcK.2).length
  let scan0 : List MRVScanItem := [⟨k, rcK.1, rcK.2, bestCnt0, k, bestCnt0⟩]
  if 1 < bestCnt0 then
    scanLoop st (List.range' (k + 1) (st.empties.length - (k + 1))) k bestCnt0 scan0
  else (k, bestCnt0, scan0)

/-- The in-place frontier swap of selectMRV (a no-op when best = k). -/
def swapAt (l : List (Nat × Nat)) (k best : Nat) : List (Nat × Nat) :=
  if best ≠ k then (l.set k (l.getD best (0, 0))).set best (l.getD k (0, 0)) else l

/-- selectMRV from the source: evaluate the head of the frontier, scan
the rest only when its count exceeds 1, swap the best cell to position
k, and return the selected cell with candidates, snapshots and trace. -/
def selectMRV (st : SState) (k : Nat) : MRVResult × SState :=
  let rcK := st.empties.getD k (0, 0)
  let kCandidates := candList st.rows st.cols st.boxes rcK.1 rcK.2
  let res := mrvScanRes st k
  let best := res.1
  let scan := res.2.2
  let swap : Option (Nat × Nat) := if best ≠ k then some (k, best) else none
  let empties' := swapAt st.empties k best
  let rc := empties'.getD k (0, 0)
  let finalCandidates :=
    if best = k then kCandidates
    else candList st.rows st.cols st.boxes rc.1 rc.2
  let emptiesSnap := empties'.map (fun ec =>
    let filled := !(getCell st.b ec.1 ec.2 == '.')
    let count := if filled then 0 else (candList st.rows st.cols st.boxes ec.1 ec.2).length
    EmptyCellInfo.mk ec.1 ec.2 count filled)
  let usage : ConstraintUsage := ⟨st.rows, st.cols, st.boxes⟩
  (⟨rc.1, rc.2, finalCandidates, emptiesSnap, usage, scan, swap⟩,
   { st with empties := empties' })

/-- The place mutation of dfs: write the digit, set the three entries. -/
def placeOp (st : SState) (r c d : Nat) : SState :=
  { st with
    b := setCell st.b r c (toChar d)
    rows := setU st.rows r d true
    cols := setU st.cols c d true
    boxes := setU st.boxes (boxId r c) d true }

/-- The backtrack mutation of dfs: clear the three entries and the cell. -/
def unplaceOp (st : SState) (r c d : Nat) : SState :=
  { st with
    b := setCell st.b r c '.'
    rows := setU st.rows r d false
    cols := setU st.cols c d false
    boxes := setU st.boxes (boxId r c) d false }

/-- A trace: each emitted step paired with the state at emission time. -/
abbrev Trace := List (SolverStep × SState)

/-- The candidate loop of dfs at one level: try each digit in order;
yield tryDigit, mutate, yield place, run the continuation (the next
recursion level), and on failure undo and yield backtrack.  Success
short-circuits the remaining digits. -/
def tryLoopAux (rec : SState → Trace × SState × Bool) (r c : Nat) :
    SState → List Nat → Trace × SState × Bool
  | st, [] => ([], st, false)
  | st, d :: ds =>
    let stB := placeOp st r c d
    let res1 := rec stB
    let tr1 := res1.1
    let stC := res1.2.1
    if res1.2.2 then
      ((SolverStep.tryDigit r c d, st) :: (SolverStep.place r c d, stB) :: tr1, stC, true)
    else
      let stD := unplaceOp stC r c d
      let res2 := tryLoopAux rec r c stD ds
      ((SolverStep.tryDigit r c d, st) :: (SolverStep.place r c d, stB) ::
        (tr1 ++ (SolverStep.backtrack r c d, stD) :: res2.1), res2.2.1, res2.2.2)

/-- dfs from the source, with a fuel argument standing for the call
stack (the caller supplies more fuel than the recursion can consume).
Base case: all empties decided, yield solved and succeed.  Otherwise run
selectMRV, yield selectCell, fail on an empty candidate list, else run
the candidate loop one level deeper. -/
def dfs : Nat → SState → Nat → Trace × SState × Bool
  | 0, st, _ => ([], st, false)
  | fuel + 1, st, k =>
    if k = st.empties.length then
      ([(SolverStep.solved, st)], st, true)
    else
      let pr := selectMRV st k
      let p := pr.1
      let st1 := pr.2
      let selStep := (SolverStep.selectCell k p.r p.c p.candidates p.empties p.usage p.scan p.swap, st1)
      if p.candidates.length = 0 then
        ([selStep], st1, false)
      else
        let res := tryLoopAux (fun s => dfs fuel s (k + 1)) p.r p.c st1 p.candidates
        (selStep :: res.1, res.2.1, res.2.2)

/-- The empties array built by the initial scan of solveSudokuMRV. -/
def findEmpties (b : Board) : List (Nat × Nat) :=
  allCells.filter (fun rc => !(isDigit (getCell b rc.1 rc.2)))

/-- The state solveSudokuMRV constructs before searching: cloned board,
row-major empties, fresh usage tables. -/
def initState (initial : Board) : SState :=
  let b := cloneBoard initial
  let u := buildUsage b
  ⟨b, u.rows, u.cols, u.boxes, findEmpties b⟩

/-- solveSudokuMRV from the source: run dfs from level 0 and, once the
step stream is exhausted, return the working board.  The success flag of
dfs is discarded exactly as the source discards `_finished`; the
completion value is the board alone. -/
def solveSudokuMRV (initial : Board) : Trace × Board :=
  let st := initState initial
  let res := dfs (st.empties.length + 1) st 0
  (res.1, res.2.1.b)

/-- The emitted step/state trace of one run. -/
def traceOf (initial : Board) : Trace := (solveSudokuMRV initial).1

/-- The emitted step sequence of one run. -/
def stepsOf (initial : Board) : List SolverStep := (traceOf initial).map Prod.fst

/-- The completion value of one run (the returned board). -/
def finalOf (initial : Board) : Board := (solveSudokuMRV initial).2

/-- The consumer-side completion test of stepOnce: the outcome is
inferred from the returned board contents, `every(ch !== '.')`. -/
def inferSolved (b : Board) : Bool := b.all (fun row => row.all (fun ch => !(ch == '.')))

/-- The free-text completion note of stepOnce. -/
def completionNote (b : Board) : String :=
  if inferSolved b then "Solved" else "No solution"

/-! Concrete boards used to instantiate and to refute claims. -/

/-- A complete valid grid (the solution of the classic sample puzzle). -/
def exFull : Board :=
  [("534678912").data, ("672195348").data, ("198342567").data,
   ("859761423").data, ("426853791").data, ("713924856").data,
   ("961537284").data, ("287419635").data, ("345286179").data]

/-- The same grid with one cell blanked: one empty cell, one candidate. -/
def exOneEmpty : Board :=
  [(".34678912").data, ("672195348").data, ("198342567").data,
   ("859761423").data, ("426853791").data, ("713924856").data,
   ("961537284").data, ("287419635").data, ("345286179").data]

/-- A valid but unsolvable board: the first empty cell (0,8) has the
single candidate 9, while cell (4,4) has no candidate at all (row 4
holds 1..8 and column 4 holds 9). -/
def exB3 : Board :=
  [("12345678.").data, ("....9....").data, (".........").data,
   (".........").data, ("3456.7812").data, (".........").data,
   (".........").data, (".........").data, (".........").data]

/-- A valid but unsolvable board whose first MRV selection scans past a
zero-candidate cell: the head cell (0,0) has 7 candidates and cell
(4,4) has none (row 4 holds 1..8 and column 4 holds 9). -/
def exZero : Board :=
  [("....9....").data, (".........").data, (".........").data,
   ("1234.5678").data, (".........").data, (".........").data,
   (".........").data, (".........").data, (".........").data]

/-- A near-empty board: every empty cell has at least 7 candidates, so
the first MRV selection runs a full scan with no early stop. -/
def exAlmost : Board :=
  [("....9....").data, (".........").data, (".........").data,
   (".........").data, (".........").data, (".........").data,
   (".........").data, (".........").data, (".........").data]

/-! Validity of an initial board and correctness of a final board. -/

/-- Structural shape: 9 rows of 9 cells. -/
def dimsOk (b : Board) : Prop :=
  b.length = 9 ∧ ∀ i, i < 9 → (b.getD i []).length = 9

/-- Every cell is the empty marker or a digit. -/
def charsOk (b : Board) : Prop :=
  ∀ r, r < 9 → ∀ c, c < 9 → getCell b r c = '.' ∨ isDigit (getCell b r c) = true

/-- No digit occurs twice in a row. -/
def ConsistentRows (b : Board) : Prop :=
  ∀ r, r < 9 → ∀ c1, c1 < 9 → ∀ c2, c2 < 9 → c1 ≠ c2 →
    isDigit (getCell b r c1) = true → isDigit (getCell b r c2) = true →
    getCell b r c1 ≠ getCell b r c2

/-- No digit occurs twice in a column. -/
def ConsistentCols (b : Board) : Prop :=
  ∀ c, c < 9 → ∀ r1, r1 < 9 → ∀ r2, r2 < 9 → r1 ≠ r2 →
    isDigit (getCell b r1 c) = true → isDigit (getCell b r2 c) = true →
    getCell b r1 c ≠ getCell b r2 c

/-- No digit occurs twice in a box. -/
def ConsistentBoxes (b : Board) : Prop :=
  ∀ r1, r1 < 9 → ∀ c1, c1 < 9 → ∀ r2, r2 < 9 → ∀ c2, c2 < 9 →
    (r1, c1) ≠ (r2, c2) → boxId r1 c1 = boxId r2 c2 →
    isDigit (getCell b r1 c1) = true → isDigit (getCell b r2 c2) = true →
    getCell b r1 c1 ≠ getCell b r2 c2

/-- A valid initial board: 9 x 9, digits or dots, no duplicate digit in
any row, column or box. -/
def ValidBoard (b : Board) : Prop :=
  dimsOk b ∧ charsOk b ∧ ConsistentRows b ∧ ConsistentCols b ∧ ConsistentBoxes b

instance instDecidableValidBoard (b : Board) : Decidable (ValidBoard b) := by
  unfold ValidBoard dimsOk charsOk ConsistentRows ConsistentCols ConsistentBoxes
  infer_instance

/-- Occurrences of digit d in row r. -/
def rowCount (b : Board) (r d : Nat) : Nat :=
  ((List.range 9).filter (fun c => getCell b r c == toChar d)).length

/-- Occurrences of digit d in column c. -/
def colCount (b : Board) (c d : Nat) : Nat :=
  ((List.range 9).filter (fun r => getCell b r c == toChar d)).length

/-- The j-th cell of box bI, row-major inside the box. -/
def boxCell (bI j : Nat) : Nat × Nat := (bI / 3 * 3 + j / 3, bI % 3 * 3 + j % 3)

/-- Occurrences of digit d in box bI. -/
def boxCount (b : Board) (bI d : Nat) : Nat :=
  ((List.range 9).filter (fun j => getCell b (boxCell bI j).1 (boxCell bI j).2 == toChar d)).length

/-- Full correctness of a final board against the initial board: every
row, column and box holds each digit exactly once and every initially
filled cell is unchanged. -/
def SolvedBoardOK (init final : Board) : Prop :=
  (∀ x, x < 9 → ∀ d, 1 ≤ d → d ≤ 9 →
    rowCount final x d = 1 ∧ colCount final x d = 1 ∧ boxCount final x d = 1) ∧
  (∀ r, r < 9 → ∀ c, c < 9 → isDigit (getCell init r c) = true →
    getCell final r c = getCell init r c)

/-- The nine digit characters. -/
def digitChars : List Char := (List.range' 1 9).map toChar

/-! Accessors into a run used by concrete counterexamples. -/

/-- The n-th emitted step of a run. -/
def stepAt (initial : Board) (n : Nat) : SolverStep :=
  (stepsOf initial).getD n SolverStep.solved

/-- The state at the moment the n-th step was emitted. -/
def stateAt (initial : Board) (n : Nat) : SState :=
  ((traceOf initial).getD n default).2

/-- Candidate count of the cell at frontier position i of a state. -/
def countAt (st : SState) (i : Nat) : Nat :=
  (candList st.rows st.cols st.boxes (st.empties.getD i (0, 0)).1 (st.empties.getD i (0, 0)).2).length

/-- The candidate-list length carried by a selectCell step. -/
def selCandLen : SolverStep → Nat
  | SolverStep.selectCell _ _ _ cands _ _ _ _ => cands.length
  | _ => 0

/-- The frontier index carried by a selectCell step. -/
def selIndex : SolverStep → Nat
  | SolverStep.selectCell k _ _ _ _ _ _ _ => k
  | _ => 0

/-- Whether a step is a selectCell step. -/
def isSelect : SolverStep → Bool
  | SolverStep.selectCell _ _ _ _ _ _ _ _ => true
  | _ => false

/-- The scan trace carried by a selectCell step. -/
def selScan : SolverStep → List MRVScanItem
  | SolverStep.selectCell _ _ _ _ _ _ scan _ => scan
  | _ => []

/-- Checker for the scan-stopping rule claimed of the MRV selector: true
exactly when the head was scanned with more than one candidate and the
trace still contains an entry after the first scanned entry (a position
past the head) whose candidate count is at most 1 — i.e. exactly when
the claimed stop-at-count-at-most-1 rule is violated. -/
def scanStopViol (scan : List MRVScanItem) : Bool :=
  match scan with
  | [] => false
  | h :: rest =>
    decide (1 < h.count) &&
    (match rest.findIdx? (fun it => decide (it.count ≤ 1)) with
     | none => false
     | some j => decide (j + 1 < rest.length))

/-! The invariant carried through the search and the conclusions of the
main induction. -/

/-- The search invariant at recursion level k: well-shaped working
board whose usage tables are exactly the freshly rebuilt ones, an
empties list that is a permutation of the initial one, decided cells
filled and undecided cells empty, no duplicate digit anywhere, and all
cells outside the empties list untouched. -/
structure Inv (init : Board) (st : SState) (k : Nat) : Prop where
  dims : dimsOk st.b
  usage : buildUsage st.b = ⟨st.rows, st.cols, st.boxes⟩
  perm : st.empties.Perm (findEmpties init)
  kle : k ≤ st.empties.length
  filledLt : ∀ i, i < k →
    isDigit (getCell st.b (st.empties.getD i (0, 0)).1 (st.empties.getD i (0, 0)).2) = true
  dotGe : ∀ i, k ≤ i → i < st.empties.length →
    getCell st.b (st.empties.getD i (0, 0)).1 (st.empties.getD i (0, 0)).2 = '.'
  consRows : ConsistentRows st.b
  consCols : ConsistentCols st.b
  consBoxes : ConsistentBoxes st.b
  agree : ∀ r c, r < 9 → c < 9 → (r, c) ∉ st.empties → getCell st.b r c = getCell init r c

/-- Shape of one usage table: 9 rows of 10 entries. -/
def tableOk (t : UsageTable) : Prop :=
  t.length = 9 ∧ ∀ i, i < 9 → (t.getD i []).length = 10

/-- Exact restoration of board and usage tables (the empties list may
keep later reorderings). -/
def Restores (st st' : SState) : Prop :=
  st'.b = st.b ∧ st'.rows = st.rows ∧ st'.cols = st.cols ∧ st'.boxes = st.boxes

/-- The conclusions of the main induction about one dfs (or candidate
loop) result: usage tables rebuilt-fresh at every emitted step, the
frontier stays a permutation with its decided prefix untouched, failure
restores board and tables and emits no solved step, success establishes
the full invariant at the final level and puts the single solved step
last. -/
def DfsConcl (init : Board) (st : SState) (k : Nat) (res : Trace × SState × Bool) : Prop :=
  (∀ p ∈ res.1, buildUsage p.2.b = ⟨p.2.rows, p.2.cols, p.2.boxes⟩) ∧
  res.2.1.empties.Perm (findEmpties init) ∧
  (∀ i, i < k → res.2.1.empties.getD i (0, 0) = st.empties.getD i (0, 0)) ∧
  (res.2.2 = false → Restores st res.2.1 ∧ SolverStep.solved ∉ res.1.map Prod.fst) ∧
  (res.2.2 = true → Inv init res.2.1 res.2.1.empties.length ∧
    ∃ pre, res.1.map Prod.fst = pre ++ [SolverStep.solved] ∧ SolverStep.solved ∉ pre)

/-! Generic list helpers. -/

theorem getD_eq_getElem {α : Type} (l : List α) (n : Nat) (d : α) (h : n < l.length) :
    l.getD n d = l[n] := by
  rw [List.getD_eq_getElem?_getD, List.getElem?_eq_getElem h]; rfl

theorem getD_eq_default {α : Type} (l : List α) (n : Nat) (d : α) (h : l.length ≤ n) :
    l.getD n d = d := by
  rw [List.getD_eq_getElem?_getD, List.getElem?_eq_none h]; rfl

theorem getD_set_self {α : Type} (l : List α) (i : Nat) (a d : α) (h : i < l.length) :
    (l.set i a).getD i d = a := by
  rw [List.getD_eq_getElem?_getD, List.getElem?_set_self (by simpa using h)]
  simp [List.getElem?_eq_getElem h]

theorem getD_set_ne {α : Type} (l : List α) (i j : Nat) (a d : α) (h : i ≠ j) :
    (l.set i a).getD j d = l.getD j d := by
  rw [List.getD_eq_getElem?_getD, List.getElem?_set_ne h, List.getD_eq_getElem?_getD]

theorem set_getD_self {α : Type} (l : List α) (i : Nat) (d : α) (h : i < l.length) :
    l.set i (l.getD i d) = l := by
  rw [getD_eq_getElem l i d h]
  apply List.ext_getElem
  · simp
  · intro n h1 h2
    simp only [List.getElem_set]
    split
    · rename_i he; subst he; rfl
    · rfl

theorem set_oob {α : Type} (l : List α) (i : Nat) (a : α) (h : l.length ≤ i) :
    l.set i a = l := List.set_eq_of_length_le h

theorem getD_mem {α : Type} (l : List α) (n : Nat) (d : α) (h : n < l.length) :
    l.getD n d ∈ l := by
  rw [getD_eq_getElem l n d h]; exact List.getElem_mem h

theorem filter_length_countP {α : Type} (p : α → Bool) (l : List α) :
    (l.filter p).length = l.countP p := by
  induction l with
  | nil => rfl
  | cons a l ih => by_cases h : p a <;> simp [List.filter_cons, List.countP_cons, h, ih]

theorem take_eq_of_getD_eq {α : Type} (l1 l2 : List α) (m : Nat) (d : α)
    (hlen : l1.length = l2.length)
    (h : ∀ i, i < m → l1.getD i d = l2.getD i d) : l1.take m = l2.take m := by
  apply List.ext_getElem
  · simp [hlen]
  · intro n h1 h2
    have hn1 : n < l1.length := by simp at h1; omega
    have hn2 : n < l2.length := by simp at h2; omega
    have hnm : n < m := by simp at h1; omega
    have := h n hnm
    rw [getD_eq_getElem l1 n d hn1, getD_eq_getElem l2 n d hn2] at this
    simpa [List.getElem_take] using this

theorem drop_perm_of_take_eq {α : Type} [DecidableEq α] (l1 l2 : List α) (m : Nat)
    (hp : l1.Perm l2) (ht : l1.take m = l2.take m) : (l1.drop m).Perm (l2.drop m) := by
  rw [List.perm_iff_count]
  intro a
  have h1 : (l1.take m).count a + (l1.drop m).count a = l1.count a := by
    rw [← List.count_append, List.take_append_drop]
  have h2 : (l2.take m).count a + (l2.drop m).count a = l2.count a := by
    rw [← List.count_append, List.take_append_drop]
  have h3 := hp.count_eq a
  rw [ht] at h1
  omega

theorem getD_drop {α : Type} (l : List α) (m i : Nat) (d : α) (h : m + i < l.length) :
    (l.drop m).getD i d = l.getD (m + i) d := by
  have hi : i < (l.drop m).length := by simp; omega
  rw [getD_eq_getElem _ i d hi, getD_eq_getElem l (m + i) d h]
  exact List.getElem_drop ..

theorem nodup_getD_ne {α : Type} (l : List α) (i j : Nat) (d : α) (hn : l.Nodup)
    (hi : i < l.length) (hj : j < l.length) (hne : i ≠ j) : l.getD i d ≠ l.getD j d := by
  rw [getD_eq_getElem l i d hi, getD_eq_getElem l j d hj]
  intro he
  exact hne (List.Nodup.getElem_inj_iff hn |>.mp he)

theorem mem_of_getD {α : Type} [DecidableEq α] (l : List α) (n : Nat) (d : α)
    (h : n < l.length) : ∃ j, j < l.length ∧ l.getD j d = l.getD n d := ⟨n, h, rfl⟩

theorem exists_getD_of_mem {α : Type} (l : List α) (a d : α) (h : a ∈ l) :
    ∃ i, i < l.length ∧ l.getD i d = a := by
  obtain ⟨i, hi, he⟩ := List.getElem_of_mem h
  exact ⟨i, hi, by rw [getD_eq_getElem l i d hi]; exact he⟩

theorem count_set_eq {α : Type} [DecidableEq α] :
    ∀ (l : List α) (i : Nat) (a b d : α), i < l.length →
    (l.set i a).count b + (if l.getD i d = b then 1 else 0) =
      l.count b + (if a = b then 1 else 0)
  | [], i, _, _, _, h => absurd h (by simp)
  | x :: xs, 0, a, b, d, _ => by
    simp only [List.set, List.getD_cons_zero, List.count_cons, beq_iff_eq]
    by_cases h1 : x = b <;> by_cases h2 : a = b <;> simp [h1, h2] <;> omega
  | x :: xs, i + 1, a, b, d, h => by
    have ih := count_set_eq xs i a b d (by simpa using h)
    simp only [List.set, List.getD_cons_succ, List.count_cons, beq_iff_eq]
    by_cases h1 : x = b <;>
      simp only [h1, if_true, if_false, List.getD_eq_getElem?_getD] at ih ⊢ <;> omega

theorem swap_perm {α : Type} [DecidableEq α] (l : List α) (i j : Nat) (d : α)
    (hi : i < l.length) (hj : j < l.length) :
    ((l.set i (l.getD j d)).set j (l.getD i d)).Perm l := by
  by_cases hij : i = j
  · subst hij
    rw [List.set_set, set_getD_self l i d hi]
  · rw [List.perm_iff_count]
    intro a
    have hj2 : j < (l.set i (l.getD j d)).length := by simpa using hj
    have c1 := count_set_eq l i (l.getD j d) a d hi
    have c2 := count_set_eq (l.set i (l.getD j d)) j (l.getD i d) a d hj2
    have hgj : (l.set i (l.getD j d)).getD j d = l.getD j d := getD_set_ne l i j _ d hij
    rw [hgj] at c2
    by_cases e1 : l.getD i d = a <;> by_cases e2 : l.getD j d = a
    · rw [if_pos e1, if_pos e2] at c1; rw [if_pos e2, if_pos e1] at c2; omega
    · rw [if_pos e1, if_neg e2] at c1; rw [if_neg e2, if_pos e1] at c2; omega
    · rw [if_neg e1, if_pos e2] at c1; rw [if_pos e2, if_neg e1] at c2; omega
    · rw [if_neg e1, if_neg e2] at c1; rw [if_neg e2, if_neg e1] at c2; omega

/-! Characters: digit characters round-trip through fromChar/toChar. -/

theorem isDigit_bounds {ch : Char} (h : isDigit ch = true) :
    49 ≤ ch.toNat ∧ ch.toNat ≤ 57 := by
  unfold isDigit at h
  simp only [Bool.and_eq_true, decide_eq_true_eq] at h
  exact h

theorem fromChar_bounds {ch : Char} (h : isDigit ch = true) :
    1 ≤ fromChar ch ∧ fromChar ch ≤ 9 := by
  have := isDigit_bounds h
  unfold fromChar
  omega

theorem toChar_fromChar {ch : Char} (h : isDigit ch = true) :
    toChar (fromChar ch) = ch := by
  have hb := isDigit_bounds h
  unfold toChar fromChar
  have : 48 + (ch.toNat - 48) = ch.toNat := by omega
  rw [this]
  exact Char.ofNat_toNat ch

theorem fromChar_toChar {d : Nat} (h1 : 1 ≤ d) (h9 : d ≤ 9) :
    fromChar (toChar d) = d := by
  interval_cases d <;> decide

theorem isDigit_toChar {d : Nat} (h1 : 1 ≤ d) (h9 : d ≤ 9) :
    isDigit (toChar d) = true := by
  interval_cases d <;> decide

theorem toChar_ne_dot {d : Nat} (h1 : 1 ≤ d) (h9 : d ≤ 9) : toChar d ≠ '.' := by
  interval_cases d <;> decide

theorem ne_dot_of_isDigit {ch : Char} (h : isDigit ch = true) : ch ≠ '.' := by
  intro he; subst he; exact absurd h (by decide)

theorem digit_char_eq_iff {ch : Char} {d : Nat} (h : isDigit ch = true)
    (h1 : 1 ≤ d) (h9 : d ≤ 9) : ch = toChar d ↔ fromChar ch = d := by
  constructor
  · intro he; rw [he]; exact fromChar_toChar h1 h9
  · intro he; rw [← toChar_fromChar h, he]

theorem mem_digitChars {ch : Char} (h : isDigit ch = true) : ch ∈ digitChars := by
  unfold digitChars
  rw [List.mem_map]
  refine ⟨fromChar ch, ?_, toChar_fromChar h⟩
  have := fromChar_bounds h
  rw [List.mem_range'_1]
  omega

/-! The cell enumerations. -/

theorem mem_allCells {rc : Nat × Nat} : rc ∈ allCells ↔ rc.1 < 9 ∧ rc.2 < 9 := by
  unfold allCells
  constructor
  · intro h
    simp only [List.mem_flatMap, List.mem_map, List.mem_range] at h
    obtain ⟨r, hr, c, hc, he⟩ := h
    subst he; exact ⟨hr, hc⟩
  · intro ⟨h1, h2⟩
    simp only [List.mem_flatMap, List.mem_map, List.mem_range]
    exact ⟨rc.1, h1, rc.2, h2, by rfl⟩

theorem allCells_nodup : allCells.Nodup := by decide

theorem mem_findEmpties {b : Board} {rc : Nat × Nat} :
    rc ∈ findEmpties b ↔ rc.1 < 9 ∧ rc.2 < 9 ∧ isDigit (getCell b rc.1 rc.2) = false := by
  unfold findEmpties
  rw [List.mem_filter, mem_allCells]
  simp only [Bool.not_eq_eq_eq_not, Bool.not_true]
  tauto

theorem findEmpties_nodup (b : Board) : (findEmpties b).Nodup :=
  List.Nodup.filter _ allCells_nodup

/-! Board cell access. -/

theorem getCell_setCell_self {b : Board} {r c : Nat} (ch : Char)
    (hd : dimsOk b) (hr : r < 9) (hc : c < 9) :
    getCell (setCell b r c ch) r c = ch := by
  unfold getCell setCell
  have hrl : r < b.length := by rw [hd.1]; exact hr
  have hcl : c < (b.getD r []).length := by rw [hd.2 r hr]; exact hc
  rw [getD_set_self b r _ [] hrl]
  exact getD_set_self _ c _ '.' hcl

theorem getCell_setCell_ne {b : Board} {r c r' c' : Nat} (ch : Char)
    (h : r ≠ r' ∨ c ≠ c') :
    getCell (setCell b r c ch) r' c' = getCell b r' c' := by
  unfold getCell setCell
  rcases h with h | h
  · rw [getD_set_ne b r r' _ [] h]
  · by_cases hrr : r = r'
    · subst hrr
      by_cases hrl : r < b.length
      · rw [getD_set_self b r _ [] hrl]
        exact getD_set_ne _ c c' ch '.' h
      · rw [set_oob b r _ (by omega)]
    · rw [getD_set_ne b r r' _ [] hrr]

theorem dimsOk_setCell {b : Board} {r c : Nat} (ch : Char) (hd : dimsOk b) :
    dimsOk (setCell b r c ch) := by
  unfold setCell
  constructor
  · simpa using hd.1
  · intro i hi
    by_cases hri : r = i
    · subst hri
      by_cases hrl : r < b.length
      · rw [getD_set_self b r _ [] hrl]
        simpa using hd.2 r hi
      · rw [set_oob b r _ (by omega)]
        exact hd.2 r hi
    · rw [getD_set_ne b r i _ [] hri]
      exact hd.2 i hi

theorem setCell_cancel {b : Board} {r c : Nat} (ch : Char)
    (h : getCell b r c = '.') :
    setCell (setCell b r c ch) r c '.' = b := by
  unfold setCell getCell at *
  by_cases hrl : r < b.length
  · rw [getD_set_self b r _ [] hrl, List.set_set]
    by_cases hcl : c < (b.getD r []).length
    · rw [List.set_set, ← h, set_getD_self _ c '.' hcl]
      exact set_getD_self b r [] hrl
    · rw [set_oob _ c _ (by rw [List.length_set]; omega), set_oob _ c _ (by omega)]
      exact set_getD_self b r [] hrl
  · rw [set_oob b r _ (by omega), set_oob b r _ (by omega)]

/-! Usage table access. -/

theorem getU_setU_self {t : UsageTable} {x d : Nat} (v : Bool)
    (ht : tableOk t) (hx : x < 9) (hd : d < 10) :
    getU (setU t x d v) x d = v := by
  unfold getU setU
  have hxl : x < t.length := by rw [ht.1]; exact hx
  have hdl : d < (t.getD x []).length := by rw [ht.2 x hx]; exact hd
  rw [getD_set_self t x _ [] hxl]
  exact getD_set_self _ d _ false hdl

theorem getU_setU_ne {t : UsageTable} {x d x' d' : Nat} (v : Bool)
    (h : x ≠ x' ∨ d ≠ d') :
    getU (setU t x d v) x' d' = getU t x' d' := by
  unfold getU setU
  rcases h with h | h
  · rw [getD_set_ne t x x' _ [] h]
  · by_cases hxx : x = x'
    · subst hxx
      by_cases hxl : x < t.length
      · rw [getD_set_self t x _ [] hxl]
        exact getD_set_ne _ d d' v false h
      · rw [set_oob t x _ (by omega)]
    · rw [getD_set_ne t x x' _ [] hxx]

theorem tableOk_setU {t : UsageTable} {x d : Nat} (v : Bool) (ht : tableOk t) :
    tableOk (setU t x d v) := by
  unfold setU
  constructor
  · simpa using ht.1
  · intro i hi
    by_cases hxi : x = i
    · subst hxi
      by_cases hxl : x < t.length
      · rw [getD_set_self t x _ [] hxl]
        simpa using ht.2 x hi
      · rw [set_oob t x _ (by omega)]
        exact ht.2 x hi
    · rw [getD_set_ne t x i _ [] hxi]
      exact ht.2 i hi

theorem setU_cancel {t : UsageTable} {x d : Nat} (v : Bool)
    (h : getU t x d = false) :
    setU (setU t x d v) x d false = t := by
  unfold setU getU at *
  by_cases hxl : x < t.length
  · rw [getD_set_self t x _ [] hxl, List.set_set]
    by_cases hdl : d < (t.getD x []).length
    · rw [List.set_set, ← h, set_getD_self _ d false hdl]
      exact set_getD_self t x [] hxl
    · rw [set_oob _ d _ (by rw [List.length_set]; omega), set_oob _ d _ (by omega)]
      exact set_getD_self t x [] hxl
  · rw [set_oob t x _ (by omega), set_oob t x _ (by omega)]

theorem tableOk_emptyTable : tableOk emptyTable := by
  constructor
  · decide
  · intro i hi
    interval_cases i <;> decide

theorem getU_emptyTable (x d : Nat) : getU emptyTable x d = false := by
  unfold getU emptyTable
  by_cases hx : x < 9
  · rw [getD_eq_getElem _ x [] (by simpa using hx), List.getElem_replicate]
    by_cases hd : d < 10
    · rw [getD_eq_getElem _ d false (by simpa using hd), List.getElem_replicate]
    · rw [getD_eq_default _ d false (by simpa using Nat.le_of_not_lt hd)]
  · rw [getD_eq_default _ x [] (by simpa using Nat.le_of_not_lt hx)]
    rfl

/-! Pointwise specification of buildUsage. -/

theorem usageStep_tableOk {b : Board} {u : ConstraintUsage} (rc : Nat × Nat)
    (h1 : tableOk u.rows) (h2 : tableOk u.cols) (h3 : tableOk u.boxes) :
    tableOk (usageStep b u rc).rows ∧ tableOk (usageStep b u rc).cols ∧
      tableOk (usageStep b u rc).boxes := by
  unfold usageStep
  by_cases hd : isDigit (getCell b rc.1 rc.2) <;> simp only [hd, if_true, if_false]
  · exact ⟨tableOk_setU _ h1, tableOk_setU _ h2, tableOk_setU _ h3⟩
  · simp_all

theorem foldl_usage_tableOk (b : Board) :
    ∀ (cells : List (Nat × Nat)) (u : ConstraintUsage),
    tableOk u.rows → tableOk u.cols → tableOk u.boxes →
    tableOk (cells.foldl (usageStep b) u).rows ∧
      tableOk (cells.foldl (usageStep b) u).cols ∧
      tableOk (cells.foldl (usageStep b) u).boxes
  | [], u, h1, h2, h3 => ⟨h1, h2, h3⟩
  | rc :: rest, u, h1, h2, h3 => by
    rw [List.foldl_cons]
    have := usageStep_tableOk (b := b) (u := u) rc h1 h2 h3
    exact foldl_usage_tableOk b rest _ this.1 this.2.1 this.2.2

theorem buildUsage_tableOk (b : Board) :
    tableOk (buildUsage b).rows ∧ tableOk (buildUsage b).cols ∧
      tableOk (buildUsage b).boxes :=
  foldl_usage_tableOk b allCells _ tableOk_emptyTable tableOk_emptyTable tableOk_emptyTable

/-- The digit mark contributed by one cell to one table entry. -/
def cellHits (b : Board) (f : Nat × Nat → Nat) (x d : Nat) (rc : Nat × Nat) : Bool :=
  (f rc == x) && isDigit (getCell b rc.1 rc.2) && (fromChar (getCell b rc.1 rc.2) == d)

theorem foldl_usage_getU (b : Board) :
    ∀ (cells : List (Nat × Nat)) (u : ConstraintUsage),
    (∀ rc ∈ cells, rc.1 < 9 ∧ rc.2 < 9) →
    tableOk u.rows → tableOk u.cols → tableOk u.boxes →
    ∀ x d,
    (getU (cells.foldl (usageStep b) u).rows x d =
      (getU u.rows x d || cells.any (cellHits b Prod.fst x d))) ∧
    (getU (cells.foldl (usageStep b) u).cols x d =
      (getU u.cols x d || cells.any (cellHits b Prod.snd x d))) ∧
    (getU (cells.foldl (usageStep b) u).boxes x d =
      (getU u.boxes x d || cells.any (cellHits b (fun rc => boxId rc.1 rc.2) x d)))
  | [], u, _, _, _, _, x, d => by simp
  | rc :: rest, u, hmem, h1, h2, h3, x, d => by
    rw [List.foldl_cons]
    have hsh := usageStep_tableOk (b := b) (u := u) rc h1 h2 h3
    have hrc := hmem rc (List.mem_cons_self rc rest)
    have ih := foldl_usage_getU b rest (usageStep b u rc)
      (fun rc' h => hmem rc' (List.mem_cons_of_mem rc h)) hsh.1 hsh.2.1 hsh.2.2 x d
    rw [ih.1, ih.2.1, ih.2.2]
    simp only [List.any_cons]
    by_cases hdg : isDigit (getCell b rc.1 rc.2)
    · have hfb := fromChar_bounds hdg
      have hstep : usageStep b u rc =
          ⟨setU u.rows rc.1 (fromChar (getCell b rc.1 rc.2)) true,
           setU u.cols rc.2 (fromChar (getCell b rc.1 rc.2)) true,
           setU u.boxes (boxId rc.1 rc.2) (fromChar (getCell b rc.1 rc.2)) true⟩ := by
        unfold usageStep
        simp [hdg]
      rw [hstep]
      refine ⟨?_, ?_, ?_⟩
      · by_cases hx : rc.1 = x <;> by_cases hd2 : fromChar (getCell b rc.1 rc.2) = d
        · subst hx; subst hd2
          rw [getU_setU_self true h1 hrc.1 (by omega)]
          simp [cellHits, hdg]
        · rw [getU_setU_ne true (Or.inr hd2)]
          have hz : (fromChar (getCell b rc.1 rc.2) == d) = false := beq_eq_false_iff_ne.mpr hd2
          simp [cellHits, hz]
        · rw [getU_setU_ne true (Or.inl hx)]
          have hz : ((rc.1 : Nat) == x) = false := beq_eq_false_iff_ne.mpr hx
          simp [cellHits, hz]
        · rw [getU_setU_ne true (Or.inl hx)]
          have hz : ((rc.1 : Nat) == x) = false := beq_eq_false_iff_ne.mpr hx
          simp [cellHits, hz]
      · by_cases hx : rc.2 = x <;> by_cases hd2 : fromChar (getCell b rc.1 rc.2) = d
        · subst hx; subst hd2
          rw [getU_setU_self true h2 hrc.2 (by omega)]
          simp [cellHits, hdg]
        · rw [getU_setU_ne true (Or.inr hd2)]
          have hz : (fromChar (getCell b rc.1 rc.2) == d) = false := beq_eq_false_iff_ne.mpr hd2
          simp [cellHits, hz]
        · rw [getU_setU_ne true (Or.inl hx)]
          have hz : ((rc.2 : Nat) == x) = false := beq_eq_false_iff_ne.mpr hx
          simp [cellHits, hz]
        · rw [getU_setU_ne true (Or.inl hx)]
          have hz : ((rc.2 : Nat) == x) = false := beq_eq_false_iff_ne.mpr hx
          simp [cellHits, hz]
      · by_cases hx : boxId rc.1 rc.2 = x <;> by_cases hd2 : fromChar (getCell b rc.1 rc.2) = d
        · subst hx; subst hd2
          rw [getU_setU_self true h3 (by unfold boxId; omega) (by omega)]
          simp [cellHits, hdg]
        · rw [getU_setU_ne true (Or.inr hd2)]
          have hz : (fromChar (getCell b rc.1 rc.2) == d) = false := beq_eq_false_iff_ne.mpr hd2
          simp [cellHits, hz]
        · rw [getU_setU_ne true (Or.inl hx)]
          have hz : ((boxId rc.1 rc.2 : Nat) == x) = false := beq_eq_false_iff_ne.mpr hx
          simp [cellHits, hz]
        · rw [getU_setU_ne true (Or.inl hx)]
          have hz : ((boxId rc.1 rc.2 : Nat) == x) = false := beq_eq_false_iff_ne.mpr hx
          simp [cellHits, hz]
    · have hstep : usageStep b u rc = u := by
        unfold usageStep
        simp [hdg]
      rw [hstep]
      simp [cellHits, hdg]

theorem getU_buildUsage_rows (b : Board) (x d : Nat) :
    getU (buildUsage b).rows x d = allCells.any (cellHits b Prod.fst x d) := by
  have := (foldl_usage_getU b allCells ⟨emptyTable, emptyTable, emptyTable⟩
    (fun rc h => mem_allCells.mp h) tableOk_emptyTable tableOk_emptyTable tableOk_emptyTable x d).1
  rwa [getU_emptyTable, Bool.false_or] at this

theorem getU_buildUsage_cols (b : Board) (x d : Nat) :
    getU (buildUsage b).cols x d = allCells.any (cellHits b Prod.snd x d) := by
  have := (foldl_usage_getU b allCells ⟨emptyTable, emptyTable, emptyTable⟩
    (fun rc h => mem_allCells.mp h) tableOk_emptyTable tableOk_emptyTable tableOk_emptyTable x d).2.1
  rwa [getU_emptyTable, Bool.false_or] at this

theorem getU_buildUsage_boxes (b : Board) (x d : Nat) :
    getU (buildUsage b).boxes x d = allCells.any (cellHits b (fun rc => boxId rc.1 rc.2) x d) := by
  have := (foldl_usage_getU b allCells ⟨emptyTable, emptyTable, emptyTable⟩
    (fun rc h => mem_allCells.mp h) tableOk_emptyTable tableOk_emptyTable tableOk_emptyTable x d).2.2
  rwa [getU_emptyTable, Bool.false_or] at this

theorem buildUsage_rows_iff (b : Board) (x d : Nat) :
    getU (buildUsage b).rows x d = true ↔
      ∃ c, c < 9 ∧ x < 9 ∧ isDigit (getCell b x c) = true ∧ fromChar (getCell b x c) = d := by
  rw [getU_buildUsage_rows, List.any_eq_true]
  constructor
  · rintro ⟨rc, hmem, hhit⟩
    have hb := mem_allCells.mp hmem
    unfold cellHits at hhit
    simp only [Bool.and_eq_true, beq_iff_eq] at hhit
    obtain ⟨⟨hx, hdg⟩, hfc⟩ := hhit
    exact ⟨rc.2, hb.2, hx ▸ hb.1, hx ▸ hdg, hx ▸ hfc⟩
  · rintro ⟨c, hc, hx, hdg, hfc⟩
    refine ⟨(x, c), mem_allCells.mpr ⟨hx, hc⟩, ?_⟩
    unfold cellHits
    simp [hdg, hfc]

theorem buildUsage_cols_iff (b : Board) (x d : Nat) :
    getU (buildUsage b).cols x d = true ↔
      ∃ r, r < 9 ∧ x < 9 ∧ isDigit (getCell b r x) = true ∧ fromChar (getCell b r x) = d := by
  rw [getU_buildUsage_cols, List.any_eq_true]
  constructor
  · rintro ⟨rc, hmem, hhit⟩
    have hb := mem_allCells.mp hmem
    unfold cellHits at hhit
    simp only [Bool.and_eq_true, beq_iff_eq] at hhit
    obtain ⟨⟨hx, hdg⟩, hfc⟩ := hhit
    exact ⟨rc.1, hb.1, hx ▸ hb.2, hx ▸ hdg, hx ▸ hfc⟩
  · rintro ⟨r, hr, hx, hdg, hfc⟩
    refine ⟨(r, x), mem_allCells.mpr ⟨hr, hx⟩, ?_⟩
    unfold cellHits
    simp [hdg, hfc]

theorem buildUsage_boxes_iff (b : Board) (x d : Nat) :
    getU (buildUsage b).boxes x d = true ↔
      ∃ r c, r < 9 ∧ c < 9 ∧ boxId r c = x ∧ isDigit (getCell b r c) = true ∧
        fromChar (getCell b r c) = d := by
  rw [getU_buildUsage_boxes, List.any_eq_true]
  constructor
  · rintro ⟨rc, hmem, hhit⟩
    have hb := mem_allCells.mp hmem
    unfold cellHits at hhit
    simp only [Bool.and_eq_true, beq_iff_eq] at hhit
    obtain ⟨⟨hx, hdg⟩, hfc⟩ := hhit
    exact ⟨rc.1, rc.2, hb.1, hb.2, hx, hdg, hfc⟩
  · rintro ⟨r, c, hr, hc, hx, hdg, hfc⟩
    refine ⟨(r, c), mem_allCells.mpr ⟨hr, hc⟩, ?_⟩
    unfold cellHits
    simp [hdg, hfc, hx]

theorem tableOk_ext {t1 t2 : UsageTable} (h1 : tableOk t1) (h2 : tableOk t2)
    (h : ∀ x d, x < 9 → d < 10 → getU t1 x d = getU t2 x d) : t1 = t2 := by
  have hl1 : t1.length = 9 := h1.1
  have hl2 : t2.length = 9 := h2.1
  apply List.ext_getElem (by omega)
  intro x hx1 hx2
  have hx9 : x < 9 := by omega
  have hr1 : t1.getD x [] = t1[x] := getD_eq_getElem t1 x [] hx1
  have hr2 : t2.getD x [] = t2[x] := getD_eq_getElem t2 x [] hx2
  have hrl1 : t1[x].length = 10 := by rw [← hr1]; exact h1.2 x hx9
  have hrl2 : t2[x].length = 10 := by rw [← hr2]; exact h2.2 x hx9
  apply List.ext_getElem (by omega)
  intro d hd1 hd2
  have hd10 : d < 10 := by omega
  have hxd := h x d hx9 hd10
  unfold getU at hxd
  rw [hr1, hr2] at hxd
  rwa [getD_eq_getElem _ d false (by omega), getD_eq_getElem _ d false (by omega)] at hxd

theorem buildUsage_setCell {b : Board} {r c d : Nat} (hd : dimsOk b)
    (hr : r < 9) (hc : c < 9) (h1 : 1 ≤ d) (h9 : d ≤ 9)
    (hnd : isDigit (getCell b r c) = false) :
    buildUsage (setCell b r c (toChar d)) =
      ⟨setU (buildUsage b).rows r d true, setU (buildUsage b).cols c d true,
       setU (buildUsage b).boxes (boxId r c) d true⟩ := by
  obtain ⟨hsr, hsc, hsb⟩ := buildUsage_tableOk b
  obtain ⟨hsr2, hsc2, hsb2⟩ := buildUsage_tableOk (setCell b r c (toChar d))
  have hbox : boxId r c < 9 := by unfold boxId; omega
  have hd10 : d < 10 := by omega
  have hdig : isDigit (getCell (setCell b r c (toChar d)) r c) = true := by
    rw [getCell_setCell_self (toChar d) hd hr hc]
    exact isDigit_toChar h1 h9
  have hfc : fromChar (getCell (setCell b r c (toChar d)) r c) = d := by
    rw [getCell_setCell_self (toChar d) hd hr hc]
    exact fromChar_toChar h1 h9
  have hrows : (buildUsage (setCell b r c (toChar d))).rows =
      setU (buildUsage b).rows r d true := by
    apply tableOk_ext hsr2 (tableOk_setU true hsr)
    intro x d2 hx hd2
    by_cases hcase : r = x ∧ d = d2
    · obtain ⟨hrx, hdd⟩ := hcase; subst hrx; subst hdd
      rw [getU_setU_self true hsr hx hd2]
      exact (buildUsage_rows_iff _ r d).mpr ⟨c, hc, hr, hdig, hfc⟩
    · have hor := not_and_or.mp hcase
      rw [getU_setU_ne true hor]
      apply Bool.eq_iff_iff.mpr
      rw [buildUsage_rows_iff, buildUsage_rows_iff]
      constructor
      · rintro ⟨c2, hc2, hx9, hdg2, hfc2⟩
        by_cases hsame : x = r ∧ c2 = c
        · exfalso
          obtain ⟨he1, he2⟩ := hsame; subst he1; subst he2
          rw [getCell_setCell_self (toChar d) hd hr hc] at hfc2
          rw [fromChar_toChar h1 h9] at hfc2
          rcases hor with h | h
          · exact h rfl
          · exact h hfc2
        · have hne : r ≠ x ∨ c ≠ c2 := by tauto
          rw [getCell_setCell_ne (toChar d) hne] at hdg2 hfc2
          exact ⟨c2, hc2, hx9, hdg2, hfc2⟩
      · rintro ⟨c2, hc2, hx9, hdg2, hfc2⟩
        by_cases hsame : x = r ∧ c2 = c
        · exfalso
          obtain ⟨he1, he2⟩ := hsame; subst he1; subst he2
          rw [hdg2] at hnd
          exact absurd hnd (by simp)
        · have hne : r ≠ x ∨ c ≠ c2 := by tauto
          refine ⟨c2, hc2, hx9, ?_, ?_⟩
          · rwa [getCell_setCell_ne (toChar d) hne]
          · rwa [getCell_setCell_ne (toChar d) hne]
  have hcols : (buildUsage (setCell b r c (toChar d))).cols =
      setU (buildUsage b).cols c d true := by
    apply tableOk_ext hsc2 (tableOk_setU true hsc)
    intro x d2 hx hd2
    by_cases hcase : c = x ∧ d = d2
    · obtain ⟨hrx, hdd⟩ := hcase; subst hrx; subst hdd
      rw [getU_setU_self true hsc hx hd2]
      exact (buildUsage_cols_iff _ c d).mpr ⟨r, hr, hc, hdig, hfc⟩
    · have hor := not_and_or.mp hcase
      rw [getU_setU_ne true hor]
      apply Bool.eq_iff_iff.mpr
      rw [buildUsage_cols_iff, buildUsage_cols_iff]
      constructor
      · rintro ⟨r2, hr2, hx9, hdg2, hfc2⟩
        by_cases hsame : r2 = r ∧ x = c
        · exfalso
          obtain ⟨he1, he2⟩ := hsame; subst he1; subst he2
          rw [getCell_setCell_self (toChar d) hd hr hc] at hfc2
          rw [fromChar_toChar h1 h9] at hfc2
          rcases hor with h | h
          · exact h rfl
          · exact h hfc2
        · have hne : r ≠ r2 ∨ c ≠ x := by tauto
          rw [getCell_setCell_ne (toChar d) hne] at hdg2 hfc2
          exact ⟨r2, hr2, hx9, hdg2, hfc2⟩
      · rintro ⟨r2, hr2, hx9, hdg2, hfc2⟩
        by_cases hsame : r2 = r ∧ x = c
        · exfalso
          obtain ⟨he1, he2⟩ := hsame; subst he1; subst he2
          rw [hdg2] at hnd
          exact absurd hnd (by simp)
        · have hne : r ≠ r2 ∨ c ≠ x := by tauto
          refine ⟨r2, hr2, hx9, ?_, ?_⟩
          · rwa [getCell_setCell_ne (toChar d) hne]
          · rwa [getCell_setCell_ne (toChar d) hne]
  have hboxes : (buildUsage (setCell b r c (toChar d))).boxes =
      setU (buildUsage b).boxes (boxId r c) d true := by
    apply tableOk_ext hsb2 (tableOk_setU true hsb)
    intro x d2 hx hd2
    by_cases hcase : boxId r c = x ∧ d = d2
    · obtain ⟨hrx, hdd⟩ := hcase; subst hdd; subst hrx
      rw [getU_setU_self true hsb hbox hd2]
      exact (buildUsage_boxes_iff _ (boxId r c) d).mpr ⟨r, c, hr, hc, rfl, hdig, hfc⟩
    · have hor := not_and_or.mp hcase
      rw [getU_setU_ne true hor]
      apply Bool.eq_iff_iff.mpr
      rw [buildUsage_boxes_iff, buildUsage_boxes_iff]
      constructor
      · rintro ⟨r2, c2, hr2, hc2, hbx, hdg2, hfc2⟩
        by_cases hsame : r2 = r ∧ c2 = c
        · exfalso
          obtain ⟨he1, he2⟩ := hsame; subst he1; subst he2
          rw [getCell_setCell_self (toChar d) hd hr hc] at hfc2
          rw [fromChar_toChar h1 h9] at hfc2
          rcases hor with h | h
          · exact h hbx
          · exact h hfc2
        · have hne : r ≠ r2 ∨ c ≠ c2 := by tauto
          rw [getCell_setCell_ne (toChar d) hne] at hdg2 hfc2
          exact ⟨r2, c2, hr2, hc2, hbx, hdg2, hfc2⟩
      · rintro ⟨r2, c2, hr2, hc2, hbx, hdg2, hfc2⟩
        by_cases hsame : r2 = r ∧ c2 = c
        · exfalso
          obtain ⟨he1, he2⟩ := hsame; subst he1; subst he2
          rw [hdg2] at hnd
          exact absurd hnd (by simp)
        · have hne : r ≠ r2 ∨ c ≠ c2 := by tauto
          refine ⟨r2, c2, hr2, hc2, hbx, ?_, ?_⟩
          · rwa [getCell_setCell_ne (toChar d) hne]
          · rwa [getCell_setCell_ne (toChar d) hne]
  calc buildUsage (setCell b r c (toChar d))
      = ⟨(buildUsage (setCell b r c (toChar d))).rows,
         (buildUsage (setCell b r c (toChar d))).cols,
         (buildUsage (setCell b r c (toChar d))).boxes⟩ := rfl
    _ = ⟨setU (buildUsage b).rows r d true, setU (buildUsage b).cols c d true,
         setU (buildUsage b).boxes (boxId r c) d true⟩ := by
        rw [hrows, hcols, hboxes]

theorem canPlace_parts {rows cols boxes : UsageTable} {r c d : Nat}
    (h : canPlace rows cols boxes r c d = true) :
    getU rows r d = false ∧ getU cols c d = false ∧ getU boxes (boxId r c) d = false := by
  unfold canPlace at h
  simp only [Bool.and_eq_true, Bool.not_eq_true'] at h
  exact ⟨h.1.1, h.1.2, h.2⟩

theorem mem_candList {rows cols boxes : UsageTable} {r c d : Nat} :
    d ∈ candList rows cols boxes r c ↔
      1 ≤ d ∧ d ≤ 9 ∧ canPlace rows cols boxes r c d = true := by
  unfold candList
  rw [List.mem_filter, List.mem_range'_1]
  constructor
  · rintro ⟨hm, hcp⟩
    exact ⟨by omega, by omega, hcp⟩
  · rintro ⟨hd1, hd9, hcp⟩
    exact ⟨by omega, hcp⟩

theorem place_unplace_cancel (st : SState) (r c d : Nat)
    (hcell : getCell st.b r c = '.')
    (hrow : getU st.rows r d = false) (hcol : getU st.cols c d = false)
    (hbox : getU st.boxes (boxId r c) d = false) :
    unplaceOp (placeOp st r c d) r c d = st := by
  unfold placeOp unplaceOp
  cases st with
  | mk b rows cols boxes empties =>
    simp only [SState.mk.injEq]
    refine ⟨setCell_cancel (toChar d) hcell, setU_cancel true hrow,
      setU_cancel true hcol, setU_cancel true hbox, trivial⟩

theorem consistent_setCell {b : Board} {r c d : Nat} (hd : dimsOk b)
    (hr : r < 9) (hc : c < 9) (h1 : 1 ≤ d) (h9 : d ≤ 9)
    (hrow : getU (buildUsage b).rows r d = false)
    (hcol : getU (buildUsage b).cols c d = false)
    (hbox : getU (buildUsage b).boxes (boxId r c) d = false)
    (cr : ConsistentRows b) (cc : ConsistentCols b) (cb : ConsistentBoxes b) :
    ConsistentRows (setCell b r c (toChar d)) ∧
      ConsistentCols (setCell b r c (toChar d)) ∧
      ConsistentBoxes (setCell b r c (toChar d)) := by
  have hnotrow : ∀ c2, c2 < 9 → isDigit (getCell b r c2) = true →
      fromChar (getCell b r c2) = d → False := by
    intro c2 hc2 hdg hfc
    have := (buildUsage_rows_iff b r d).mpr ⟨c2, hc2, hr, hdg, hfc⟩
    rw [hrow] at this
    exact absurd this (by simp)
  have hnotcol : ∀ r2, r2 < 9 → isDigit (getCell b r2 c) = true →
      fromChar (getCell b r2 c) = d → False := by
    intro r2 hr2 hdg hfc
    have := (buildUsage_cols_iff b c d).mpr ⟨r2, hr2, hc, hdg, hfc⟩
    rw [hcol] at this
    exact absurd this (by simp)
  have hnotbox : ∀ r2 c2, r2 < 9 → c2 < 9 → boxId r2 c2 = boxId r c →
      isDigit (getCell b r2 c2) = true → fromChar (getCell b r2 c2) = d → False := by
    intro r2 c2 hr2 hc2 hbx hdg hfc
    have := (buildUsage_boxes_iff b (boxId r c) d).mpr ⟨r2, c2, hr2, hc2, hbx, hdg, hfc⟩
    rw [hbox] at this
    exact absurd this (by simp)
  refine ⟨?_, ?_, ?_⟩
  · intro r1 hr1 c1 hc1 c2 hc2 hne hdg1 hdg2 heq
    by_cases e1 : r1 = r ∧ c1 = c
    · obtain ⟨hA, hB⟩ := e1; subst hA; subst hB
      rw [getCell_setCell_self (toChar d) hd hr hc] at heq
      rw [getCell_setCell_ne (toChar d) (Or.inr hne)] at heq hdg2
      exact hnotrow c2 hc2 hdg2 (by rw [← heq, fromChar_toChar h1 h9])
    · by_cases e2 : r1 = r ∧ c2 = c
      · obtain ⟨hA, hB⟩ := e2; subst hA; subst hB
        rw [getCell_setCell_self (toChar d) hd hr hc] at heq
        rw [getCell_setCell_ne (toChar d) (Or.inr (Ne.symm hne))] at heq hdg1
        exact hnotrow c1 hc1 hdg1 (by rw [heq, fromChar_toChar h1 h9])
      · have hx1 : r ≠ r1 ∨ c ≠ c1 := by omega
        have hx2 : r ≠ r1 ∨ c ≠ c2 := by omega
        rw [getCell_setCell_ne (toChar d) hx1] at hdg1 heq
        rw [getCell_setCell_ne (toChar d) hx2] at hdg2 heq
        exact cr r1 hr1 c1 hc1 c2 hc2 hne hdg1 hdg2 heq
  · intro c0 hc0 r1 hr1 r2 hr2 hne hdg1 hdg2 heq
    by_cases e1 : r1 = r ∧ c0 = c
    · obtain ⟨hA, hB⟩ := e1; subst hA; subst hB
      rw [getCell_setCell_self (toChar d) hd hr hc] at heq
      rw [getCell_setCell_ne (toChar d) (Or.inl hne)] at heq hdg2
      exact hnotcol r2 hr2 hdg2 (by rw [← heq, fromChar_toChar h1 h9])
    · by_cases e2 : r2 = r ∧ c0 = c
      · obtain ⟨hA, hB⟩ := e2; subst hA; subst hB
        rw [getCell_setCell_self (toChar d) hd hr hc] at heq
        rw [getCell_setCell_ne (toChar d) (Or.inl (Ne.symm hne))] at heq hdg1
        exact hnotcol r1 hr1 hdg1 (by rw [heq, fromChar_toChar h1 h9])
      · have hx1 : r ≠ r1 ∨ c ≠ c0 := by omega
        have hx2 : r ≠ r2 ∨ c ≠ c0 := by omega
        rw [getCell_setCell_ne (toChar d) hx1] at hdg1 heq
        rw [getCell_setCell_ne (toChar d) hx2] at hdg2 heq
        exact cc c0 hc0 r1 hr1 r2 hr2 hne hdg1 hdg2 heq
  · intro r1 hr1 c1 hc1 r2 hr2 c2 hc2 hnePair hbx hdg1 hdg2 heq
    by_cases e1 : r1 = r ∧ c1 = c
    · obtain ⟨hA, hB⟩ := e1; subst hA; subst hB
      have hne2 : r1 ≠ r2 ∨ c1 ≠ c2 := by
        by_contra hcon
        push_neg at hcon
        exact hnePair (by rw [hcon.1, hcon.2])
      rw [getCell_setCell_self (toChar d) hd hr hc] at heq
      rw [getCell_setCell_ne (toChar d) hne2] at heq hdg2
      exact hnotbox r2 c2 hr2 hc2 hbx.symm hdg2 (by rw [← heq, fromChar_toChar h1 h9])
    · by_cases e2 : r2 = r ∧ c2 = c
      · obtain ⟨hA, hB⟩ := e2; subst hA; subst hB
        have hne1 : r2 ≠ r1 ∨ c2 ≠ c1 := by
          by_contra hcon
          push_neg at hcon
          exact hnePair (by rw [hcon.1, hcon.2])
        rw [getCell_setCell_self (toChar d) hd hr hc] at heq
        rw [getCell_setCell_ne (toChar d) hne1] at heq hdg1
        exact hnotbox r1 c1 hr1 hc1 hbx hdg1 (by rw [heq, fromChar_toChar h1 h9])
      · have hx1 : r ≠ r1 ∨ c ≠ c1 := by omega
        have hx2 : r ≠ r2 ∨ c ≠ c2 := by omega
        rw [getCell_setCell_ne (toChar d) hx1] at hdg1 heq
        rw [getCell_setCell_ne (toChar d) hx2] at hdg2 heq
        exact cb r1 hr1 c1 hc1 r2 hr2 c2 hc2 hnePair hbx hdg1 hdg2 heq

/-! The scan result, the swap, and invariant preservation of selectMRV. -/

theorem pair_ne_parts {p : Nat × Nat} {r c : Nat} (h : p ≠ (r, c)) :
    r ≠ p.1 ∨ c ≠ p.2 := by
  by_cases h1 : p.1 = r
  · by_cases h2 : p.2 = c
    · exact absurd (by rw [← h1, ← h2]) h
    · exact Or.inr (fun hc2 => h2 hc2.symm)
  · exact Or.inl (fun hr2 => h1 hr2.symm)

theorem scanLoop_best_mem (st : SState) :
    ∀ (idxs : List Nat) (best cnt : Nat) (scan : List MRVScanItem),
    (scanLoop st idxs best cnt scan).1 = best ∨ (scanLoop st idxs best cnt scan).1 ∈ idxs
  | [], best, cnt, scan => Or.inl rfl
  | i :: rest, best, cnt, scan => by
    simp only [scanLoop]
    by_cases hlt : (candList st.rows st.cols st.boxes (st.empties.getD i (0, 0)).1
        (st.empties.getD i (0, 0)).2).length < cnt
    · rw [if_pos hlt, if_pos hlt]
      by_cases h1 : (candList st.rows st.cols st.boxes (st.empties.getD i (0, 0)).1
          (st.empties.getD i (0, 0)).2).length = 1
      · rw [if_pos h1]
        exact Or.inr (List.mem_cons_self i rest)
      · rw [if_neg h1]
        rcases scanLoop_best_mem st rest i _ _ with h | h
        · rw [h]
          exact Or.inr (List.mem_cons_self i rest)
        · exact Or.inr (List.mem_cons_of_mem i h)
    · rw [if_neg hlt, if_neg hlt]
      by_cases h1 : cnt = 1
      · rw [if_pos h1]
        exact Or.inl rfl
      · rw [if_neg h1]
        rcases scanLoop_best_mem st rest best _ _ with h | h
        · exact Or.inl h
        · exact Or.inr (List.mem_cons_of_mem i h)

theorem mrvScanRes_best_bounds (st : SState) (k : Nat) (hk : k < st.empties.length) :
    k ≤ (mrvScanRes st k).1 ∧ (mrvScanRes st k).1 < st.empties.length := by
  simp only [mrvScanRes]
  by_cases h1 : 1 < (candList st.rows st.cols st.boxes (st.empties.getD k (0, 0)).1
      (st.empties.getD k (0, 0)).2).length
  · simp only [h1, if_true]
    rcases scanLoop_best_mem st (List.range' (k + 1) (st.empties.length - (k + 1))) k _ _
      with h | h
    · rw [h]; omega
    · rw [List.mem_range'_1] at h
      omega
  · simp only [h1, if_false]
    omega

theorem swapAt_length (l : List (Nat × Nat)) (k best : Nat) :
    (swapAt l k best).length = l.length := by
  unfold swapAt
  split <;> simp

theorem swapAt_perm (l : List (Nat × Nat)) (k best : Nat)
    (hk : k < l.length) (hb : best < l.length) : (swapAt l k best).Perm l := by
  unfold swapAt
  split
  · exact swap_perm l k best (0, 0) hk hb
  · exact List.Perm.refl l

theorem swapAt_getD_lt (l : List (Nat × Nat)) (k best i : Nat)
    (hik : i < k) (hkb : k ≤ best) :
    (swapAt l k best).getD i (0, 0) = l.getD i (0, 0) := by
  unfold swapAt
  split
  · rw [getD_set_ne _ best i _ _ (by omega), getD_set_ne _ k i _ _ (by omega)]
  · rfl

theorem swapAt_getD_k (l : List (Nat × Nat)) (k best : Nat) (hk : k < l.length) :
    (swapAt l k best).getD k (0, 0) = l.getD best (0, 0) := by
  unfold swapAt
  split
  · rename_i h
    rw [getD_set_ne _ best k _ _ h, getD_set_self l k _ _ hk]
  · rename_i h
    rw [not_not.mp h]

theorem swapAt_getD_best (l : List (Nat × Nat)) (k best : Nat) (hb : best < l.length) :
    (swapAt l k best).getD best (0, 0) = l.getD k (0, 0) := by
  unfold swapAt
  split
  · exact getD_set_self _ best _ _ (by simpa using hb)
  · rename_i h
    rw [not_not.mp h]

theorem swapAt_getD_other (l : List (Nat × Nat)) (k best i : Nat)
    (hik : i ≠ k) (hib : i ≠ best) :
    (swapAt l k best).getD i (0, 0) = l.getD i (0, 0) := by
  unfold swapAt
  split
  · rw [getD_set_ne _ best i _ _ (Ne.symm hib), getD_set_ne _ k i _ _ (Ne.symm hik)]
  · rfl

theorem selectMRV_state (st : SState) (k : Nat) :
    (selectMRV st k).2 = { st with empties := swapAt st.empties k (mrvScanRes st k).1 } := rfl

theorem selectMRV_rc (st : SState) (k : Nat) :
    ((selectMRV st k).1.r, (selectMRV st k).1.c) =
      (swapAt st.empties k (mrvScanRes st k).1).getD k (0, 0) := rfl

theorem selectMRV_scan_eq (st : SState) (k : Nat) :
    (selectMRV st k).1.scan = (mrvScanRes st k).2.2 := rfl

theorem selectMRV_candidates (st : SState) (k : Nat) :
    (selectMRV st k).1.candidates =
      candList st.rows st.cols st.boxes (selectMRV st k).1.r (selectMRV st k).1.c := by
  by_cases hbk : (mrvScanRes st k).1 = k
  · show (if (mrvScanRes st k).1 = k then _ else _) = _
    rw [if_pos hbk]
    have hsw : swapAt st.empties k (mrvScanRes st k).1 = st.empties := by
      unfold swapAt
      rw [hbk]
      simp
    show candList st.rows st.cols st.boxes (st.empties.getD k (0, 0)).1
        (st.empties.getD k (0, 0)).2 =
      candList st.rows st.cols st.boxes
        ((swapAt st.empties k (mrvScanRes st k).1).getD k (0, 0)).1
        ((swapAt st.empties k (mrvScanRes st k).1).getD k (0, 0)).2
    rw [hsw]
  · show (if (mrvScanRes st k).1 = k then _ else _) = _
    rw [if_neg hbk]
    rfl

/-! Derived facts of the invariant. -/

theorem Inv.nodup {init : Board} {st : SState} {k : Nat} (h : Inv init st k) :
    st.empties.Nodup := (h.perm.nodup_iff).mpr (findEmpties_nodup init)

theorem Inv.coords {init : Board} {st : SState} {k : Nat} (h : Inv init st k) :
    ∀ rc ∈ st.empties, rc.1 < 9 ∧ rc.2 < 9 := by
  intro rc hm
  have := mem_findEmpties.mp (h.perm.mem_iff.mp hm)
  exact ⟨this.1, this.2.1⟩

theorem Inv.lenEq {init : Board} {st : SState} {k : Nat} (h : Inv init st k) :
    st.empties.length = (findEmpties init).length := h.perm.length_eq

theorem place_Inv {init : Board} {st : SState} {k r c d : Nat}
    (hInv : Inv init st k) (hk : k < st.empties.length)
    (hrc : st.empties.getD k (0, 0) = (r, c)) (hd1 : 1 ≤ d) (hd9 : d ≤ 9)
    (hcp : canPlace st.rows st.cols st.boxes r c d = true) :
    Inv init (placeOp st r c d) (k + 1) := by
  obtain ⟨hrow, hcol, hbox⟩ := canPlace_parts hcp
  have hbu : buildUsage st.b = ⟨st.rows, st.cols, st.boxes⟩ := hInv.usage
  have hrow2 : getU (buildUsage st.b).rows r d = false := by rw [hbu]; exact hrow
  have hcol2 : getU (buildUsage st.b).cols c d = false := by rw [hbu]; exact hcol
  have hbox2 : getU (buildUsage st.b).boxes (boxId r c) d = false := by rw [hbu]; exact hbox
  have hmem : (r, c) ∈ st.empties := hrc ▸ getD_mem st.empties k (0, 0) hk
  have hr9 : r < 9 := (hInv.coords _ hmem).1
  have hc9 : c < 9 := (hInv.coords _ hmem).2
  have hdot : getCell st.b r c = '.' := by
    have := hInv.dotGe k (le_refl k) hk
    rwa [hrc] at this
  have hnd : isDigit (getCell st.b r c) = false := by rw [hdot]; rfl
  have hbu2 := buildUsage_setCell hInv.dims hr9 hc9 hd1 hd9 hnd
  have hcons := consistent_setCell hInv.dims hr9 hc9 hd1 hd9 hrow2 hcol2 hbox2
    hInv.consRows hInv.consCols hInv.consBoxes
  have hnodup := hInv.nodup
  have hkle : k + 1 ≤ (placeOp st r c d).empties.length := hk
  refine ⟨dimsOk_setCell _ hInv.dims, ?_, hInv.perm, hkle, ?_, ?_,
    hcons.1, hcons.2.1, hcons.2.2, ?_⟩
  · show buildUsage (setCell st.b r c (toChar d)) =
      ⟨setU st.rows r d true, setU st.cols c d true, setU st.boxes (boxId r c) d true⟩
    rw [hbu2, hbu]
  · intro i hik1
    show isDigit (getCell (setCell st.b r c (toChar d))
      (st.empties.getD i (0, 0)).1 (st.empties.getD i (0, 0)).2) = true
    by_cases hik : i = k
    · subst hik
      rw [hrc]
      rw [getCell_setCell_self (toChar d) hInv.dims hr9 hc9]
      exact isDigit_toChar hd1 hd9
    · have hlt : i < k := by omega
      have hne : st.empties.getD i (0, 0) ≠ (r, c) := by
        rw [← hrc]
        exact nodup_getD_ne st.empties i k (0, 0) hnodup (by omega) hk hik
      rw [getCell_setCell_ne (toChar d) (pair_ne_parts hne)]
      exact hInv.filledLt i hlt
  · intro i hki hilen
    show getCell (setCell st.b r c (toChar d))
      (st.empties.getD i (0, 0)).1 (st.empties.getD i (0, 0)).2 = '.'
    have hik : i ≠ k := by omega
    have hne : st.empties.getD i (0, 0) ≠ (r, c) := by
      rw [← hrc]
      exact nodup_getD_ne st.empties i k (0, 0) hnodup (by
        show i < st.empties.length
        exact hilen) hk hik
    rw [getCell_setCell_ne (toChar d) (pair_ne_parts hne)]
    exact hInv.dotGe i (by omega) hilen
  · intro r2 c2 hr2 hc2 hnm
    show getCell (setCell st.b r c (toChar d)) r2 c2 = getCell init r2 c2
    have hne : r ≠ r2 ∨ c ≠ c2 := by
      have : (r2, c2) ≠ (r, c) := fun he => hnm (he ▸ hmem)
      have := pair_ne_parts this
      simpa using this
    rw [getCell_setCell_ne (toChar d) hne]
    exact hInv.agree r2 c2 hr2 hc2 hnm

theorem select_Inv {init : Board} {st : SState} {k : Nat}
    (hInv : Inv init st k) (hk : k < st.empties.length) :
    Inv init (selectMRV st k).2 k := by
  obtain ⟨hbk, hblen⟩ := mrvScanRes_best_bounds st k hk
  rw [selectMRV_state]
  have hperm : (swapAt st.empties k (mrvScanRes st k).1).Perm st.empties :=
    swapAt_perm st.empties k _ hk hblen
  refine ⟨hInv.dims, hInv.usage, hperm.trans hInv.perm, ?_, ?_, ?_,
    hInv.consRows, hInv.consCols, hInv.consBoxes, ?_⟩
  · show k ≤ (swapAt st.empties k (mrvScanRes st k).1).length
    rw [swapAt_length]
    omega
  · intro i hik
    show isDigit (getCell st.b
      ((swapAt st.empties k (mrvScanRes st k).1).getD i (0, 0)).1
      ((swapAt st.empties k (mrvScanRes st k).1).getD i (0, 0)).2) = true
    rw [swapAt_getD_lt st.empties k _ i hik hbk]
    exact hInv.filledLt i hik
  · intro i hki hilen
    rw [swapAt_length] at hilen
    show getCell st.b
      ((swapAt st.empties k (mrvScanRes st k).1).getD i (0, 0)).1
      ((swapAt st.empties k (mrvScanRes st k).1).getD i (0, 0)).2 = '.'
    by_cases hik : i = k
    · rw [hik]
      rw [swapAt_getD_k st.empties k _ hk]
      exact hInv.dotGe _ hbk hblen
    · by_cases hib : i = (mrvScanRes st k).1
      · subst hib
        rw [swapAt_getD_best st.empties k _ hblen]
        exact hInv.dotGe k (le_refl k) hk
      · rw [swapAt_getD_other st.empties k _ i hik hib]
        exact hInv.dotGe i hki hilen
  · intro r2 c2 hr2 hc2 hnm
    rw [hperm.mem_iff] at hnm
    exact hInv.agree r2 c2 hr2 hc2 hnm

/-! The main induction: the candidate loop and dfs. -/

theorem tryLoop_main (init : Board) (rec : SState → Trace × SState × Bool) (k r c : Nat)
    (hrec : ∀ s, Inv init s (k + 1) → DfsConcl init s (k + 1) (rec s)) :
    ∀ (ds : List Nat) (st : SState), Inv init st k →
    k < st.empties.length →
    st.empties.getD k (0, 0) = (r, c) →
    (∀ d ∈ ds, 1 ≤ d ∧ d ≤ 9 ∧ canPlace st.rows st.cols st.boxes r c d = true) →
    DfsConcl init st (k + 1) (tryLoopAux rec r c st ds)
  | [], st, hInv, hk, hrc, hds => by
    unfold tryLoopAux
    refine ⟨?_, hInv.perm, ?_, ?_, ?_⟩
    · intro p hp
      exact absurd hp (List.not_mem_nil p)
    · intro i _
      rfl
    · intro _
      exact ⟨⟨rfl, rfl, rfl, rfl⟩, by simp⟩
    · intro hcontra
      exact absurd hcontra (by simp)
  | d :: ds, st, hInv, hk, hrc, hds => by
    have hd := hds d (List.mem_cons_self d ds)
    have hInvB : Inv init (placeOp st r c d) (k + 1) :=
      place_Inv hInv hk hrc hd.1 hd.2.1 hd.2.2
    obtain ⟨B1, B2, B3, B4, B5⟩ := hrec (placeOp st r c d) hInvB
    have hdot : getCell st.b r c = '.' := by
      have := hInv.dotGe k (le_refl k) hk
      rwa [hrc] at this
    obtain ⟨hgr, hgc, hgb⟩ := canPlace_parts hd.2.2
    simp only [tryLoopAux]
    by_cases hok : (rec (placeOp st r c d)).2.2 = true
    · rw [if_pos hok]
      refine ⟨?_, B2, ?_, ?_, ?_⟩
      · intro p hp
        simp only [List.mem_cons] at hp
        rcases hp with h | h | h
        · rw [h]
          exact hInv.usage
        · rw [h]
          exact hInvB.usage
        · exact B1 p h
      · intro i hik
        have := B3 i hik
        exact this
      · intro hcontra
        exact absurd hcontra (by simp)
      · intro _
        obtain ⟨hinv5, pre1, hsteps1, hnot1⟩ := B5 hok
        refine ⟨hinv5, SolverStep.tryDigit r c d :: SolverStep.place r c d :: pre1, ?_, ?_⟩
        · simp only [List.map_cons, hsteps1]
          rfl
        · intro hm
          simp only [List.mem_cons] at hm
          rcases hm with h | h | h
          · exact absurd h (by simp)
          · exact absurd h (by simp)
          · exact hnot1 h
    · rw [if_neg hok]
      have hfail : (rec (placeOp st r c d)).2.2 = false := Bool.eq_false_iff.mpr hok
      obtain ⟨⟨R1, R2, R3, R4⟩, hnos1⟩ := B4 hfail
      -- the undone state restores all four data fields of st
      have hDb : (unplaceOp (rec (placeOp st r c d)).2.1 r c d).b = st.b := by
        show setCell (rec (placeOp st r c d)).2.1.b r c '.' = st.b
        rw [R1]
        show setCell (setCell st.b r c (toChar d)) r c '.' = st.b
        exact setCell_cancel (toChar d) hdot
      have hDr : (unplaceOp (rec (placeOp st r c d)).2.1 r c d).rows = st.rows := by
        show setU (rec (placeOp st r c d)).2.1.rows r d false = st.rows
        rw [R2]
        exact setU_cancel true hgr
      have hDc : (unplaceOp (rec (placeOp st r c d)).2.1 r c d).cols = st.cols := by
        show setU (rec (placeOp st r c d)).2.1.cols c d false = st.cols
        rw [R3]
        exact setU_cancel true hgc
      have hDx : (unplaceOp (rec (placeOp st r c d)).2.1 r c d).boxes = st.boxes := by
        show setU (rec (placeOp st r c d)).2.1.boxes (boxId r c) d false = st.boxes
        rw [R4]
        exact setU_cancel true hgb
      have hDe : (unplaceOp (rec (placeOp st r c d)).2.1 r c d).empties =
          (rec (placeOp st r c d)).2.1.empties := rfl
      have hDlen : (unplaceOp (rec (placeOp st r c d)).2.1 r c d).empties.length =
          st.empties.length := by
        rw [hDe, B2.length_eq, hInv.lenEq]
      have hDgetD : ∀ i, i < k + 1 →
          (unplaceOp (rec (placeOp st r c d)).2.1 r c d).empties.getD i (0, 0) =
            st.empties.getD i (0, 0) := by
        intro i hik
        rw [hDe]
        exact B3 i hik
      have hDperm : (unplaceOp (rec (placeOp st r c d)).2.1 r c d).empties.Perm
          st.empties := by
        rw [hDe]
        exact B2.trans hInv.perm.symm
      have htake : (unplaceOp (rec (placeOp st r c d)).2.1 r c d).empties.take (k + 1) =
          st.empties.take (k + 1) := by
        apply take_eq_of_getD_eq _ _ _ (0, 0) hDlen
        exact hDgetD
      have hdrop : ((unplaceOp (rec (placeOp st r c d)).2.1 r c d).empties.drop (k + 1)).Perm
          (st.empties.drop (k + 1)) := drop_perm_of_take_eq _ _ _ hDperm htake
      have hInvD : Inv init (unplaceOp (rec (placeOp st r c d)).2.1 r c d) k := by
        refine ⟨?_, ?_, ?_, ?_, ?_, ?_, ?_, ?_, ?_, ?_⟩
        · rw [hDb]; exact hInv.dims
        · rw [hDb, hDr, hDc, hDx]; exact hInv.usage
        · rw [hDe]; exact B2
        · rw [hDlen]; omega
        · intro i hik
          rw [hDb, hDgetD i (by omega)]
          exact hInv.filledLt i hik
        · intro i hki hilen
          rw [hDlen] at hilen
          rw [hDb]
          by_cases hik : i = k
          · rw [hik, hDgetD k (by omega), hrc]
            exact hdot
          · have hki1 : k + 1 ≤ i := by omega
            have hmemd : (unplaceOp (rec (placeOp st r c d)).2.1 r c d).empties.getD i (0, 0) ∈
                (unplaceOp (rec (placeOp st r c d)).2.1 r c d).empties.drop (k + 1) := by
              have hi2 : k + 1 + (i - (k + 1)) = i := by omega
              have hgd := getD_drop
                (unplaceOp (rec (placeOp st r c d)).2.1 r c d).empties
                (k + 1) (i - (k + 1)) (0, 0) (by rw [hDlen]; omega)
              rw [hi2] at hgd
              rw [← hgd]
              exact getD_mem _ _ _ (by rw [List.length_drop, hDlen]; omega)
            have hmems : (unplaceOp (rec (placeOp st r c d)).2.1 r c d).empties.getD i (0, 0) ∈
                st.empties.drop (k + 1) := hdrop.mem_iff.mp hmemd
            obtain ⟨j, hj, hjeq⟩ := exists_getD_of_mem _ _ (0, 0) hmems
            rw [List.length_drop] at hj
            rw [getD_drop _ (k + 1) j (0, 0) (by omega)] at hjeq
            rw [← hjeq]
            exact hInv.dotGe (k + 1 + j) (by omega) (by omega)
        · rw [hDb]; exact hInv.consRows
        · rw [hDb]; exact hInv.consCols
        · rw [hDb]; exact hInv.consBoxes
        · intro r2 c2 hr2 hc2 hnm
          rw [hDb]
          rw [hDperm.mem_iff] at hnm
          exact hInv.agree r2 c2 hr2 hc2 hnm
      have hkD : k < (unplaceOp (rec (placeOp st r c d)).2.1 r c d).empties.length := by
        rw [hDlen]; exact hk
      have hrcD : (unplaceOp (rec (placeOp st r c d)).2.1 r c d).empties.getD k (0, 0) =
          (r, c) := by
        rw [hDgetD k (by omega)]
        exact hrc
      have hdsD : ∀ d2 ∈ ds, 1 ≤ d2 ∧ d2 ≤ 9 ∧
          canPlace (unplaceOp (rec (placeOp st r c d)).2.1 r c d).rows
            (unplaceOp (rec (placeOp st r c d)).2.1 r c d).cols
            (unplaceOp (rec (placeOp st r c d)).2.1 r c d).boxes r c d2 = true := by
        intro d2 hm
        have := hds d2 (List.mem_cons_of_mem d hm)
        rw [hDr, hDc, hDx]
        exact this
      obtain ⟨C1, C2, C3, C4, C5⟩ :=
        tryLoop_main init rec k r c hrec ds
          (unplaceOp (rec (placeOp st r c d)).2.1 r c d) hInvD hkD hrcD hdsD
      refine ⟨?_, C2, ?_, ?_, ?_⟩
      · intro p hp
        simp only [List.mem_cons, List.mem_append] at hp
        rcases hp with h | h | h | h | h
        · rw [h]; exact hInv.usage
        · rw [h]; exact hInvB.usage
        · exact B1 p h
        · rw [h]
          show buildUsage (unplaceOp (rec (placeOp st r c d)).2.1 r c d).b = _
          rw [hDb, hDr, hDc, hDx]
          exact hInv.usage
        · exact C1 p h
      · intro i hik
        rw [C3 i hik, hDgetD i hik]
      · intro hfalse
        obtain ⟨⟨S1, S2, S3, S4⟩, hnos2⟩ := C4 hfalse
        refine ⟨⟨?_, ?_, ?_, ?_⟩, ?_⟩
        · rw [S1, hDb]
        · rw [S2, hDr]
        · rw [S3, hDc]
        · rw [S4, hDx]
        · intro hm
          simp only [List.map_cons, List.map_append, List.mem_cons, List.mem_append] at hm
          rcases hm with h | h | h | h | h
          · exact absurd h (by simp)
          · exact absurd h (by simp)
          · exact hnos1 h
          · exact absurd h (by simp)
          · exact hnos2 h
      · intro htrue
        obtain ⟨hinv5, pre2, hsteps2, hnot2⟩ := C5 htrue
        refine ⟨hinv5,
          SolverStep.tryDigit r c d :: SolverStep.place r c d ::
            ((rec (placeOp st r c d)).1.map Prod.fst ++
              SolverStep.backtrack r c d :: pre2), ?_, ?_⟩
        · simp only [List.map_cons, List.map_append, hsteps2]
          simp [List.append_assoc]
        · intro hm
          simp only [List.mem_cons, List.mem_append] at hm
          rcases hm with h | h | h | h | h
          · exact absurd h (by simp)
          · exact absurd h (by simp)
          · exact hnos1 h
          · exact absurd h (by simp)
          · exact hnot2 h

theorem dfs_main (init : Board) :
    ∀ (fuel : Nat) (st : SState) (k : Nat), Inv init st k →
    (findEmpties init).length - k < fuel →
    DfsConcl init st k (dfs fuel st k)
  | 0, st, k, hInv, hfuel => absurd hfuel (by omega)
  | fuel + 1, st, k, hInv, hfuel => by
    simp only [dfs]
    by_cases hkl : k = st.empties.length
    · rw [if_pos hkl]
      refine ⟨?_, hInv.perm, ?_, ?_, ?_⟩
      · intro p hp
        simp only [List.mem_cons] at hp
        rcases hp with h | h
        · rw [h]; exact hInv.usage
        · exact absurd h (List.not_mem_nil p)
      · intro i _
        rfl
      · intro hcontra
        exact absurd hcontra (by simp)
      · intro _
        exact ⟨hkl ▸ hInv, [], by simp, by simp⟩
    · rw [if_neg hkl]
      have hk : k < st.empties.length := Nat.lt_of_le_of_ne hInv.kle hkl
      have hInv1 : Inv init (selectMRV st k).2 k := select_Inv hInv hk
      obtain ⟨hbk, hblen⟩ := mrvScanRes_best_bounds st k hk
      have hfb : (selectMRV st k).2.b = st.b := by rw [selectMRV_state]
      have hfr : (selectMRV st k).2.rows = st.rows := by rw [selectMRV_state]
      have hfc : (selectMRV st k).2.cols = st.cols := by rw [selectMRV_state]
      have hfx : (selectMRV st k).2.boxes = st.boxes := by rw [selectMRV_state]
      have hfe : (selectMRV st k).2.empties = swapAt st.empties k (mrvScanRes st k).1 := by
        rw [selectMRV_state]
      have hlen1 : (selectMRV st k).2.empties.length = st.empties.length := by
        rw [hfe, swapAt_length]
      have hk1 : k < (selectMRV st k).2.empties.length := by rw [hlen1]; exact hk
      have hrc1 : (selectMRV st k).2.empties.getD k (0, 0) =
          ((selectMRV st k).1.r, (selectMRV st k).1.c) := by
        rw [hfe]
        exact (selectMRV_rc st k).symm
      have hpres1 : ∀ i, i < k →
          (selectMRV st k).2.empties.getD i (0, 0) = st.empties.getD i (0, 0) := by
        intro i hik
        rw [hfe]
        exact swapAt_getD_lt st.empties k _ i hik hbk
      by_cases hcand : (selectMRV st k).1.candidates.length = 0
      · rw [if_pos hcand]
        refine ⟨?_, hInv1.perm, ?_, ?_, ?_⟩
        · intro p hp
          simp only [List.mem_cons] at hp
          rcases hp with h | h
          · rw [h]; exact hInv1.usage
          · exact absurd h (List.not_mem_nil p)
        · intro i hik
          exact hpres1 i hik
        · intro _
          refine ⟨⟨hfb, hfr, hfc, hfx⟩, ?_⟩
          simp
        · intro hcontra
          exact absurd hcontra (by simp)
      · rw [if_neg hcand]
        have hrec : ∀ s, Inv init s (k + 1) →
            DfsConcl init s (k + 1) (dfs fuel s (k + 1)) := by
          intro s hInvS
          apply dfs_main init fuel s (k + 1) hInvS
          have := hInv.lenEq
          omega
        have hds : ∀ d ∈ (selectMRV st k).1.candidates, 1 ≤ d ∧ d ≤ 9 ∧
            canPlace (selectMRV st k).2.rows (selectMRV st k).2.cols
              (selectMRV st k).2.boxes (selectMRV st k).1.r (selectMRV st k).1.c d = true := by
          intro d hm
          rw [selectMRV_candidates] at hm
          have hmc := mem_candList.mp hm
          rw [hfr, hfc, hfx]
          exact hmc
        obtain ⟨L1, L2, L3, L4, L5⟩ :=
          tryLoop_main init (fun s => dfs fuel s (k + 1)) k
            (selectMRV st k).1.r (selectMRV st k).1.c hrec
            (selectMRV st k).1.candidates (selectMRV st k).2 hInv1 hk1 hrc1 hds
        refine ⟨?_, L2, ?_, ?_, ?_⟩
        · intro p hp
          simp only [List.mem_cons] at hp
          rcases hp with h | h
          · rw [h]; exact hInv1.usage
          · exact L1 p h
        · intro i hik
          rw [L3 i (by omega)]
          exact hpres1 i hik
        · intro hfalse
          obtain ⟨⟨S1, S2, S3, S4⟩, hnos⟩ := L4 hfalse
          refine ⟨⟨?_, ?_, ?_, ?_⟩, ?_⟩
          · rw [S1, hfb]
          · rw [S2, hfr]
          · rw [S3, hfc]
          · rw [S4, hfx]
          · intro hm
            simp only [List.map_cons, List.mem_cons] at hm
            rcases hm with h | h
            · exact absurd h (by simp)
            · exact hnos h
        · intro htrue
          obtain ⟨hinv5, pre, hsteps, hnot⟩ := L5 htrue
          refine ⟨hinv5,
            SolverStep.selectCell k (selectMRV st k).1.r (selectMRV st k).1.c
              (selectMRV st k).1.candidates (selectMRV st k).1.empties
              (selectMRV st k).1.usage (selectMRV st k).1.scan
              (selectMRV st k).1.swap :: pre, ?_, ?_⟩
          · simp only [List.map_cons, hsteps]
            rfl
          · intro hm
            simp only [List.mem_cons] at hm
            rcases hm with h | h
            · exact absurd h (by simp)
            · exact hnot h

/-! From the invariant at success to the counting statement. -/

theorem cloneBoard_id (b : Board) : cloneBoard b = b := by
  unfold cloneBoard
  simp

theorem initState_b (init : Board) : (initState init).b = init := by
  simp only [initState]
  rw [cloneBoard_id]

theorem initState_empties (init : Board) : (initState init).empties = findEmpties init := by
  simp only [initState]
  rw [cloneBoard_id]

theorem initState_Inv {init : Board} (hv : ValidBoard init) :
    Inv init (initState init) 0 := by
  obtain ⟨hdim, hch, hcr, hcc, hcb⟩ := hv
  refine ⟨?_, ?_, ?_, ?_, ?_, ?_, ?_, ?_, ?_, ?_⟩
  · rw [initState_b]; exact hdim
  · show buildUsage (initState init).b =
      ⟨(buildUsage (cloneBoard init)).rows, (buildUsage (cloneBoard init)).cols,
       (buildUsage (cloneBoard init)).boxes⟩
    rw [initState_b, cloneBoard_id]
  · rw [initState_empties]
  · exact Nat.zero_le _
  · intro i hik
    exact absurd hik (by omega)
  · intro i _ hilen
    rw [initState_empties] at hilen ⊢
    rw [initState_b]
    have hm : (findEmpties init).getD i (0, 0) ∈ findEmpties init :=
      getD_mem _ i (0, 0) hilen
    have := mem_findEmpties.mp hm
    rcases hch _ this.1 _ this.2.1 with h | h
    · exact h
    · rw [h] at this
      exact absurd this.2.2 (by simp)
  · rw [initState_b]; exact hcr
  · rw [initState_b]; exact hcc
  · rw [initState_b]; exact hcb
  · intro r c _ _ _
    rw [initState_b]

theorem Inv_success_complete {init : Board} {st : SState}
    (hInv : Inv init st st.empties.length) :
    (∀ r c, r < 9 → c < 9 → isDigit (getCell st.b r c) = true) ∧
    (∀ r c, r < 9 → c < 9 → isDigit (getCell init r c) = true →
      getCell st.b r c = getCell init r c) := by
  constructor
  · intro r c hr hc
    by_cases hm : (r, c) ∈ st.empties
    · obtain ⟨i, hi, hieq⟩ := exists_getD_of_mem _ _ (0, 0) hm
      have hfl := hInv.filledLt i hi
      rw [hieq] at hfl
      exact hfl
    · have hnf : (r, c) ∉ findEmpties init := fun h => hm (hInv.perm.mem_iff.mpr h)
      have hdig : isDigit (getCell init r c) = true := by
        by_contra hnd
        exact hnf (mem_findEmpties.mpr ⟨hr, hc, Bool.eq_false_iff.mpr hnd⟩)
      rw [hInv.agree r c hr hc hm]
      exact hdig
  · intro r c hr hc hdig
    apply hInv.agree r c hr hc
    intro hm
    have := mem_findEmpties.mp (hInv.perm.mem_iff.mp hm)
    rw [hdig] at this
    exact absurd this.2.2 (by simp)

theorem digitChars_nodup : digitChars.Nodup := by decide

theorem count_digitChars {d : Nat} (h1 : 1 ≤ d) (h9 : d ≤ 9) :
    digitChars.count (toChar d) = 1 := by
  apply List.count_eq_one_of_mem digitChars_nodup
  unfold digitChars
  rw [List.mem_map]
  exact ⟨d, by rw [List.mem_range'_1]; omega, rfl⟩

theorem count_one_of_inj (f : Nat → Char)
    (hdg : ∀ j, j < 9 → isDigit (f j) = true)
    (hinj : ∀ j1 j2, j1 < 9 → j2 < 9 → j1 ≠ j2 → f j1 ≠ f j2)
    (d : Nat) (hd1 : 1 ≤ d) (hd9 : d ≤ 9) :
    ((List.range 9).filter (fun j => f j == toChar d)).length = 1 := by
  have hnd : ((List.range 9).map f).Nodup := by
    apply List.Nodup.map_on
    · intro x hx y hy hfe
      rw [List.mem_range] at hx hy
      by_contra hne
      exact hinj x y hx hy hne hfe
    · exact List.nodup_range 9
  have hsub : (List.range 9).map f ⊆ digitChars := by
    intro ch hm
    rw [List.mem_map] at hm
    obtain ⟨j, hj, hje⟩ := hm
    rw [List.mem_range] at hj
    rw [← hje]
    exact mem_digitChars (hdg j hj)
  have hsp : ((List.range 9).map f).Subperm digitChars := List.Nodup.subperm hnd hsub
  have hperm : ((List.range 9).map f).Perm digitChars := by
    apply hsp.perm_of_length_le
    simp [digitChars]
  have hcnt : ((List.range 9).map f).count (toChar d) = 1 := by
    rw [hperm.count_eq]
    exact count_digitChars hd1 hd9
  rw [filter_length_countP]
  rw [List.count_eq_countP, List.countP_map] at hcnt
  exact hcnt

theorem boxCell_lt {x j : Nat} (hx : x < 9) (hj : j < 9) :
    (boxCell x j).1 < 9 ∧ (boxCell x j).2 < 9 := by
  unfold boxCell
  constructor <;> simp <;> omega

theorem boxId_boxCell {x j : Nat} (hx : x < 9) (hj : j < 9) :
    boxId (boxCell x j).1 (boxCell x j).2 = x := by
  unfold boxId boxCell
  simp
  omega

theorem boxCell_inj {x j1 j2 : Nat} (hx : x < 9) (h1 : j1 < 9) (h2 : j2 < 9)
    (hne : j1 ≠ j2) : boxCell x j1 ≠ boxCell x j2 := by
  intro he
  have ha := congrArg Prod.fst he
  have hb := congrArg Prod.snd he
  simp [boxCell] at ha hb
  omega

theorem counts_of_complete (b : Board)
    (hcomp : ∀ r c, r < 9 → c < 9 → isDigit (getCell b r c) = true)
    (hrows : ConsistentRows b) (hcols : ConsistentCols b) (hboxes : ConsistentBoxes b) :
    ∀ x, x < 9 → ∀ d, 1 ≤ d → d ≤ 9 →
      rowCount b x d = 1 ∧ colCount b x d = 1 ∧ boxCount b x d = 1 := by
  intro x hx d hd1 hd9
  refine ⟨?_, ?_, ?_⟩
  · apply count_one_of_inj (fun c => getCell b x c)
    · intro j hj
      exact hcomp x j hx hj
    · intro j1 j2 h1 h2 hne
      exact hrows x hx j1 h1 j2 h2 hne (hcomp x j1 hx h1) (hcomp x j2 hx h2)
    · exact hd1
    · exact hd9
  · apply count_one_of_inj (fun r => getCell b r x)
    · intro j hj
      exact hcomp j x hj hx
    · intro j1 j2 h1 h2 hne
      exact hcols x hx j1 h1 j2 h2 hne (hcomp j1 x h1 hx) (hcomp j2 x h2 hx)
    · exact hd1
    · exact hd9
  · apply count_one_of_inj (fun j => getCell b (boxCell x j).1 (boxCell x j).2)
    · intro j hj
      have := boxCell_lt hx hj
      exact hcomp _ _ this.1 this.2
    · intro j1 j2 h1 h2 hne
      have hb1 := boxCell_lt hx h1
      have hb2 := boxCell_lt hx h2
      apply hboxes _ hb1.1 _ hb1.2 _ hb2.1 _ hb2.2 (boxCell_inj hx h1 h2 hne)
      · rw [boxId_boxCell hx h1, boxId_boxCell hx h2]
      · exact hcomp _ _ hb1.1 hb1.2
      · exact hcomp _ _ hb2.1 hb2.2
    · exact hd1
    · exact hd9

/-- The conclusions of the main induction, instantiated at a full run
of solveSudokuMRV. -/
theorem run_concl (init : Board) (hv : ValidBoard init) :
    DfsConcl init (initState init) 0
      (dfs ((initState init).empties.length + 1) (initState init) 0) := by
  apply dfs_main init _ _ 0 (initState_Inv hv)
  rw [initState_empties]
  omega

/-! Position of the solved step, independent of board validity. -/

theorem tryLoop_solved (rec : SState → Trace × SState × Bool) (r c : Nat)
    (hrec : ∀ s, ((rec s).2.2 = false → SolverStep.solved ∉ (rec s).1.map Prod.fst) ∧
      ((rec s).2.2 = true → ∃ pre, (rec s).1.map Prod.fst = pre ++ [SolverStep.solved] ∧
        SolverStep.solved ∉ pre)) :
    ∀ (ds : List Nat) (st : SState),
      ((tryLoopAux rec r c st ds).2.2 = false →
        SolverStep.solved ∉ (tryLoopAux rec r c st ds).1.map Prod.fst) ∧
      ((tryLoopAux rec r c st ds).2.2 = true →
        ∃ pre, (tryLoopAux rec r c st ds).1.map Prod.fst = pre ++ [SolverStep.solved] ∧
          SolverStep.solved ∉ pre)
  | [], st => ⟨fun _ => by simp [tryLoopAux], fun h => absurd h (by simp [tryLoopAux])⟩
  | d :: ds, st => by
    simp only [tryLoopAux]
    by_cases hok : (rec (placeOp st r c d)).2.2 = true
    · rw [if_pos hok]
      constructor
      · intro h
        exact absurd h (by simp)
      · intro _
        obtain ⟨pre1, h1, h2⟩ := (hrec (placeOp st r c d)).2 hok
        refine ⟨SolverStep.tryDigit r c d :: SolverStep.place r c d :: pre1, ?_, ?_⟩
        · simp only [List.map_cons, h1]
          rfl
        · intro hm
          simp only [List.mem_cons] at hm
          rcases hm with h | h | h
          · exact absurd h (by simp)
          · exact absurd h (by simp)
          · exact h2 h
    · rw [if_neg hok]
      have hnos1 := (hrec (placeOp st r c d)).1 (Bool.eq_false_iff.mpr hok)
      obtain ⟨IH1, IH2⟩ := tryLoop_solved rec r c hrec ds
        (unplaceOp (rec (placeOp st r c d)).2.1 r c d)
      constructor
      · intro hf
        have hnos2 := IH1 hf
        intro hm
        simp only [List.map_cons, List.map_append, List.mem_cons, List.mem_append] at hm
        rcases hm with h | h | h | h | h
        · exact absurd h (by simp)
        · exact absurd h (by simp)
        · exact hnos1 h
        · exact absurd h (by simp)
        · exact hnos2 h
      · intro ht
        obtain ⟨pre2, h1, h2⟩ := IH2 ht
        refine ⟨SolverStep.tryDigit r c d :: SolverStep.place r c d ::
          ((rec (placeOp st r c d)).1.map Prod.fst ++ SolverStep.backtrack r c d :: pre2),
          ?_, ?_⟩
        · simp only [List.map_cons, List.map_append, h1]
          simp [List.append_assoc]
        · intro hm
          simp only [List.mem_cons, List.mem_append] at hm
          rcases hm with h | h | h | h | h
          · exact absurd h (by simp)
          · exact absurd h (by simp)
          · exact hnos1 h
          · exact absurd h (by simp)
          · exact h2 h

theorem dfs_solved :
    ∀ (fuel : Nat) (st : SState) (k : Nat),
      ((dfs fuel st k).2.2 = false → SolverStep.solved ∉ (dfs fuel st k).1.map Prod.fst) ∧
      ((dfs fuel st k).2.2 = true → ∃ pre, (dfs fuel st k).1.map Prod.fst =
        pre ++ [SolverStep.solved] ∧ SolverStep.solved ∉ pre)
  | 0, st, k => ⟨fun _ => by simp [dfs], fun h => absurd h (by simp [dfs])⟩
  | fuel + 1, st, k => by
    simp only [dfs]
    by_cases hkl : k = st.empties.length
    · rw [if_pos hkl]
      exact ⟨fun h => absurd h (by simp), fun _ => ⟨[], by simp, by simp⟩⟩
    · rw [if_neg hkl]
      by_cases hcand : (selectMRV st k).1.candidates.length = 0
      · rw [if_pos hcand]
        exact ⟨fun _ => by simp, fun h => absurd h (by simp)⟩
      · rw [if_neg hcand]
        obtain ⟨IH1, IH2⟩ := tryLoop_solved (fun s => dfs fuel s (k + 1))
          (selectMRV st k).1.r (selectMRV st k).1.c
          (fun s => dfs_solved fuel s (k + 1))
          (selectMRV st k).1.candidates (selectMRV st k).2
        constructor
        · intro hf
          have hnos := IH1 hf
          intro hm
          simp only [List.map_cons, List.mem_cons] at hm
          rcases hm with h | h
          · exact absurd h (by simp)
          · exact hnos h
        · intro ht
          obtain ⟨pre, h1, h2⟩ := IH2 ht
          refine ⟨SolverStep.selectCell k (selectMRV st k).1.r (selectMRV st k).1.c
            (selectMRV st k).1.candidates (selectMRV st k).1.empties
            (selectMRV st k).1.usage (selectMRV st k).1.scan
            (selectMRV st k).1.swap :: pre, ?_, ?_⟩
          · simp only [List.map_cons, h1]
            rfl
          · intro hm
            simp only [List.mem_cons] at hm
            rcases hm with h | h
            · exact absurd h (by simp)
            · exact h2 h

/-! Completion-value helpers for the consumer-side outcome inference. -/

theorem inferSolved_of_complete {b : Board} (hdim : dimsOk b)
    (hcomp : ∀ r c, r < 9 → c < 9 → isDigit (getCell b r c) = true) :
    inferSolved b = true := by
  unfold inferSolved
  rw [List.all_eq_true]
  intro row hrow
  rw [List.all_eq_true]
  intro ch hch
  obtain ⟨r, hr, hre⟩ := List.getElem_of_mem hrow
  obtain ⟨c, hc, hce⟩ := List.getElem_of_mem hch
  have hr9 : r < 9 := by rw [hdim.1] at hr; exact hr
  have hc9 : c < 9 := by
    have := hdim.2 r hr9
    rw [getD_eq_getElem b r [] hr, hre] at this
    omega
  have hg : getCell b r c = ch := by
    unfold getCell
    rw [getD_eq_getElem b r [] hr, hre, getD_eq_getElem row c '.' hc, hce]
  have hdg := hcomp r c hr9 hc9
  rw [hg] at hdg
  have hne := ne_dot_of_isDigit hdg
  simpa using hne

theorem complete_of_inferSolved {b : Board} (hdim : dimsOk b) (h : inferSolved b = true) :
    ∀ r c, r < 9 → c < 9 → getCell b r c ≠ '.' := by
  intro r c hr hc
  unfold inferSolved at h
  rw [List.all_eq_true] at h
  have hrl : r < b.length := by rw [hdim.1]; exact hr
  have hrow := h b[r] (List.getElem_mem hrl)
  rw [List.all_eq_true] at hrow
  have hcl : c < b[r].length := by
    have := hdim.2 r hr
    rw [getD_eq_getElem b r [] hrl] at this
    omega
  have hcm := hrow (b[r][c]) (List.getElem_mem hcl)
  have hg : getCell b r c = b[r][c] := by
    unfold getCell
    rw [getD_eq_getElem b r [] hrl, getD_eq_getElem _ c '.' hcl]
  rw [hg]
  simpa using hcm

/-! Analysis of the scan loop: stopping rule, entry positions, and the
minimality of the tracked best count. -/

theorem getD_append_lt {α : Type} (l l2 : List α) (n : Nat) (d : α) (h : n < l.length) :
    (l ++ l2).getD n d = l.getD n d := by
  rw [getD_eq_getElem _ n d (by simp; omega), getD_eq_getElem l n d h]
  exact List.getElem_append_left ..

theorem getD_append_len {α : Type} (l : List α) (e d : α) :
    (l ++ [e]).getD l.length d = e := by
  rw [List.getD_eq_getElem?_getD, List.getElem?_append_right (le_refl l.length)]
  simp

theorem scanLoop_no_entry_after_one (st : SState) :
    ∀ (idxs : List Nat) (best cnt : Nat) (scan : List MRVScanItem),
    (∀ j, j + 1 < scan.length → (scan.getD j default).bestCount ≠ 1) →
    (scan ≠ [] → (scan.getD (scan.length - 1) default).bestCount = cnt) →
    cnt ≠ 1 →
    ∀ j, j + 1 < (scanLoop st idxs best cnt scan).2.2.length →
      ((scanLoop st idxs best cnt scan).2.2.getD j default).bestCount ≠ 1
  | [], best, cnt, scan, h1, _, _, j => h1 j
  | i :: rest, best, cnt, scan, h1, h2, hcnt, j => by
    simp only [scanLoop]
    by_cases hlt : (candList st.rows st.cols st.boxes (st.empties.getD i (0, 0)).1
        (st.empties.getD i (0, 0)).2).length < cnt
    · rw [if_pos hlt, if_pos hlt]
      have hmid : ∀ j2, j2 + 1 < (scan ++ [(⟨i, (st.empties.getD i (0, 0)).1,
          (st.empties.getD i (0, 0)).2,
          (candList st.rows st.cols st.boxes (st.empties.getD i (0, 0)).1
            (st.empties.getD i (0, 0)).2).length, i,
          (candList st.rows st.cols st.boxes (st.empties.getD i (0, 0)).1
            (st.empties.getD i (0, 0)).2).length⟩ : MRVScanItem)]).length →
          ((scan ++ [(⟨i, (st.empties.getD i (0, 0)).1, (st.empties.getD i (0, 0)).2,
            (candList st.rows st.cols st.boxes (st.empties.getD i (0, 0)).1
              (st.empties.getD i (0, 0)).2).length, i,
            (candList st.rows st.cols st.boxes (st.empties.getD i (0, 0)).1
              (st.empties.getD i (0, 0)).2).length⟩ : MRVScanItem)]).getD j2
            default).bestCount ≠ 1 := by
        intro j2 hj2
        simp only [List.length_append, List.length_cons, List.length_nil] at hj2
        have hj2s : j2 < scan.length := by omega
        rw [getD_append_lt scan _ j2 default hj2s]
        by_cases hlast : j2 + 1 < scan.length
        · exact h1 j2 hlast
        · have hne : scan ≠ [] := by
            intro he
            rw [he] at hj2s
            simp at hj2s
          have hj2e : j2 = scan.length - 1 := by omega
          rw [hj2e, h2 hne]
          exact hcnt
      by_cases h1b : (candList st.rows st.cols st.boxes (st.empties.getD i (0, 0)).1
          (st.empties.getD i (0, 0)).2).length = 1
      · rw [if_pos h1b]
        intro hj
        exact hmid j hj
      · rw [if_neg h1b]
        intro hj
        refine scanLoop_no_entry_after_one st rest i _ _ hmid ?_ h1b j hj
        intro _
        simp only [List.length_append, List.length_cons, List.length_nil]
        have : scan.length + 1 - 1 = scan.length := by omega
        rw [this, getD_append_len]
    · rw [if_neg hlt, if_neg hlt]
      have hmid : ∀ j2, j2 + 1 < (scan ++ [(⟨i, (st.empties.getD i (0, 0)).1,
          (st.empties.getD i (0, 0)).2,
          (candList st.rows st.cols st.boxes (st.empties.getD i (0, 0)).1
            (st.empties.getD i (0, 0)).2).length, best, cnt⟩ : MRVScanItem)]).length →
          ((scan ++ [(⟨i, (st.empties.getD i (0, 0)).1, (st.empties.getD i (0, 0)).2,
            (candList st.rows st.cols st.boxes (st.empties.getD i (0, 0)).1
              (st.empties.getD i (0, 0)).2).length, best, cnt⟩ : MRVScanItem)]).getD j2
            default).bestCount ≠ 1 := by
        intro j2 hj2
        simp only [List.length_append, List.length_cons, List.length_nil] at hj2
        have hj2s : j2 < scan.length := by omega
        rw [getD_append_lt scan _ j2 default hj2s]
        by_cases hlast : j2 + 1 < scan.length
        · exact h1 j2 hlast
        · have hne : scan ≠ [] := by
            intro he
            rw [he] at hj2s
            simp at hj2s
          have hj2e : j2 = scan.length - 1 := by omega
          rw [hj2e, h2 hne]
          exact hcnt
      rw [if_neg hcnt]
      intro hj
      refine scanLoop_no_entry_after_one st rest best _ _ hmid ?_ hcnt j hj
      intro _
      simp only [List.length_append, List.length_cons, List.length_nil]
      have : scan.length + 1 - 1 = scan.length := by omega
      rw [this, getD_append_len]

theorem scanLoop_break_or_full (st : SState) :
    ∀ (idxs : List Nat) (best cnt : Nat) (scan : List MRVScanItem),
    (scanLoop st idxs best cnt scan).2.2.length = scan.length + idxs.length ∨
    ((scanLoop st idxs best cnt scan).2.2.getD
      ((scanLoop st idxs best cnt scan).2.2.length - 1) default).bestCount = 1
  | [], best, cnt, scan => Or.inl (by simp [scanLoop])
  | i :: rest, best, cnt, scan => by
    simp only [scanLoop]
    by_cases hlt : (candList st.rows st.cols st.boxes (st.empties.getD i (0, 0)).1
        (st.empties.getD i (0, 0)).2).length < cnt
    · rw [if_pos hlt, if_pos hlt]
      by_cases h1b : (candList st.rows st.cols st.boxes (st.empties.getD i (0, 0)).1
          (st.empties.getD i (0, 0)).2).length = 1
      · rw [if_pos h1b]
        right
        simp only [List.length_append, List.length_cons, List.length_nil]
        have : scan.length + 1 - 1 = scan.length := by omega
        rw [this, getD_append_len]
        exact h1b
      · rw [if_neg h1b]
        rcases scanLoop_break_or_full st rest i
          (candList st.rows st.cols st.boxes (st.empties.getD i (0, 0)).1
            (st.empties.getD i (0, 0)).2).length
          (scan ++ [⟨i, (st.empties.getD i (0, 0)).1, (st.empties.getD i (0, 0)).2,
            (candList st.rows st.cols st.boxes (st.empties.getD i (0, 0)).1
              (st.empties.getD i (0, 0)).2).length, i,
            (candList st.rows st.cols st.boxes (st.empties.getD i (0, 0)).1
              (st.empties.getD i (0, 0)).2).length⟩]) with h | h
        · left
          rw [h]
          simp only [List.length_append, List.length_cons, List.length_nil]
          omega
        · right
          exact h
    · rw [if_neg hlt, if_neg hlt]
      by_cases h1b : cnt = 1
      · rw [if_pos h1b]
        right
        simp only [List.length_append, List.length_cons, List.length_nil]
        have : scan.length + 1 - 1 = scan.length := by omega
        rw [this, getD_append_len]
        exact h1b
      · rw [if_neg h1b]
        rcases scanLoop_break_or_full st rest best cnt
          (scan ++ [⟨i, (st.empties.getD i (0, 0)).1, (st.empties.getD i (0, 0)).2,
            (candList st.rows st.cols st.boxes (st.empties.getD i (0, 0)).1
              (st.empties.getD i (0, 0)).2).length, best, cnt⟩]) with h | h
        · left
          rw [h]
          simp only [List.length_append, List.length_cons, List.length_nil]
          omega
        · right
          exact h

theorem append_entry_idx (scan : List MRVScanItem) (e : MRVScanItem) (k0 : Nat)
    (h : ∀ m, m < scan.length → (scan.getD m default).i = k0 + m)
    (he : e.i = k0 + scan.length) :
    ∀ m, m < (scan ++ [e]).length → ((scan ++ [e]).getD m default).i = k0 + m := by
  intro m hm
  simp only [List.length_append, List.length_cons, List.length_nil] at hm
  by_cases hms : m < scan.length
  · rw [getD_append_lt scan _ m default hms]
    exact h m hms
  · have hme : m = scan.length := by omega
    rw [hme, getD_append_len]
    rw [he]

theorem scanLoop_entry_idx (st : SState) :
    ∀ (n k0 best cnt : Nat) (scan : List MRVScanItem),
    (∀ m, m < scan.length → (scan.getD m default).i = k0 + m) →
    ∀ m, m < (scanLoop st (List.range' (k0 + scan.length) n) best cnt scan).2.2.length →
      ((scanLoop st (List.range' (k0 + scan.length) n) best cnt scan).2.2.getD m
        default).i = k0 + m
  | 0, k0, best, cnt, scan, h, m => by
    simp only [List.range']
    simp only [scanLoop]
    exact h m
  | n + 1, k0, best, cnt, scan, h, m => by
    rw [List.range'_succ]
    simp only [scanLoop]
    by_cases hlt : (candList st.rows st.cols st.boxes
        (st.empties.getD (k0 + scan.length) (0, 0)).1
        (st.empties.getD (k0 + scan.length) (0, 0)).2).length < cnt
    · rw [if_pos hlt, if_pos hlt]
      by_cases h1b : (candList st.rows st.cols st.boxes
          (st.empties.getD (k0 + scan.length) (0, 0)).1
          (st.empties.getD (k0 + scan.length) (0, 0)).2).length = 1
      · rw [if_pos h1b]
        exact append_entry_idx scan _ k0 h rfl m
      · rw [if_neg h1b]
        intro hm
        have hrec := scanLoop_entry_idx st n k0 (k0 + scan.length)
          (candList st.rows st.cols st.boxes
            (st.empties.getD (k0 + scan.length) (0, 0)).1
            (st.empties.getD (k0 + scan.length) (0, 0)).2).length
          (scan ++ [(⟨k0 + scan.length, (st.empties.getD (k0 + scan.length) (0, 0)).1,
            (st.empties.getD (k0 + scan.length) (0, 0)).2,
            (candList st.rows st.cols st.boxes
              (st.empties.getD (k0 + scan.length) (0, 0)).1
              (st.empties.getD (k0 + scan.length) (0, 0)).2).length, k0 + scan.length,
            (candList st.rows st.cols st.boxes
              (st.empties.getD (k0 + scan.length) (0, 0)).1
              (st.empties.getD (k0 + scan.length) (0, 0)).2).length⟩ : MRVScanItem)])
          (append_entry_idx scan _ k0 h rfl) m
        simp only [List.length_append, List.length_cons, List.length_nil] at hrec
        have hadd : k0 + (scan.length + 1) = k0 + scan.length + 1 := by omega
        rw [hadd] at hrec
        exact hrec hm
    · rw [if_neg hlt, if_neg hlt]
      by_cases h1b : cnt = 1
      · rw [if_pos h1b]
        exact append_entry_idx scan _ k0 h rfl m
      · rw [if_neg h1b]
        intro hm
        have hrec := scanLoop_entry_idx st n k0 best cnt
          (scan ++ [(⟨k0 + scan.length, (st.empties.getD (k0 + scan.length) (0, 0)).1,
            (st.empties.getD (k0 + scan.length) (0, 0)).2,
            (candList st.rows st.cols st.boxes
              (st.empties.getD (k0 + scan.length) (0, 0)).1
              (st.empties.getD (k0 + scan.length) (0, 0)).2).length, best, cnt⟩ :
            MRVScanItem)])
          (append_entry_idx scan _ k0 h rfl) m
        simp only [List.length_append, List.length_cons, List.length_nil] at hrec
        have hadd : k0 + (scan.length + 1) = k0 + scan.length + 1 := by omega
        rw [hadd] at hrec
        exact hrec hm

theorem scanLoop_cnt_eq (st : SState) :
    ∀ (idxs : List Nat) (best cnt : Nat) (scan : List MRVScanItem),
    cnt = countAt st best →
    (scanLoop st idxs best cnt scan).2.1 = countAt st (scanLoop st idxs best cnt scan).1
  | [], best, cnt, scan, h => h
  | i :: rest, best, cnt, scan, h => by
    simp only [scanLoop]
    by_cases hlt : (candList st.rows st.cols st.boxes (st.empties.getD i (0, 0)).1
        (st.empties.getD i (0, 0)).2).length < cnt
    · rw [if_pos hlt, if_pos hlt]
      by_cases h1b : (candList st.rows st.cols st.boxes (st.empties.getD i (0, 0)).1
          (st.empties.getD i (0, 0)).2).length = 1
      · rw [if_pos h1b]
        rfl
      · rw [if_neg h1b]
        exact scanLoop_cnt_eq st rest i _ _ rfl
    · rw [if_neg hlt, if_neg hlt]
      by_cases h1b : cnt = 1
      · rw [if_pos h1b]
        rw [h1b] at h
        exact h1b.symm ▸ h
      · rw [if_neg h1b]
        exact scanLoop_cnt_eq st rest best cnt _ h

theorem scanLoop_min (st : SState) :
    ∀ (idxs : List Nat) (best cnt : Nat) (scan : List MRVScanItem),
    (scanLoop st idxs best cnt scan).2.1 ≠ 1 →
    (scanLoop st idxs best cnt scan).2.1 ≤ cnt ∧
      ∀ i ∈ idxs, (scanLoop st idxs best cnt scan).2.1 ≤ countAt st i
  | [], best, cnt, scan, _ => ⟨le_refl cnt, fun i hi => absurd hi (List.not_mem_nil i)⟩
  | i :: rest, best, cnt, scan, hne => by
    simp only [scanLoop] at hne ⊢
    by_cases hlt : (candList st.rows st.cols st.boxes (st.empties.getD i (0, 0)).1
        (st.empties.getD i (0, 0)).2).length < cnt
    · rw [if_pos hlt, if_pos hlt] at hne ⊢
      by_cases h1b : (candList st.rows st.cols st.boxes (st.empties.getD i (0, 0)).1
          (st.empties.getD i (0, 0)).2).length = 1
      · rw [if_pos h1b] at hne ⊢
        exact absurd h1b hne
      · rw [if_neg h1b] at hne ⊢
        obtain ⟨hle, hall⟩ := scanLoop_min st rest i _ _ hne
        refine ⟨by omega, ?_⟩
        intro i2 hi2
        rcases List.mem_cons.mp hi2 with h | h
        · rw [h]
          unfold countAt
          exact hle
        · exact hall i2 h
    · rw [if_neg hlt, if_neg hlt] at hne ⊢
      by_cases h1b : cnt = 1
      · rw [if_pos h1b] at hne ⊢
        exact absurd h1b hne
      · rw [if_neg h1b] at hne ⊢
        obtain ⟨hle, hall⟩ := scanLoop_min st rest best cnt _ hne
        refine ⟨hle, ?_⟩
        intro i2 hi2
        rcases List.mem_cons.mp hi2 with h | h
        · have : cnt ≤ countAt st i2 := by
            rw [h]
            unfold countAt
            omega
          omega
        · exact hall i2 h

/-! Claim theorems: MRV selection. -/

/-- C8: when the frontier-head cell has exactly one candidate before
scanning, the scan trace of the emitted selectCell step has length
exactly 1 — no cell beyond the head is scanned. -/
theorem C8_singleton_scan (st : SState) (k : Nat) (hk : k < st.empties.length)
    (h1 : (candList st.rows st.cols st.boxes (st.empties.getD k (0, 0)).1
      (st.empties.getD k (0, 0)).2).length = 1) :
    (selectMRV st k).1.scan.length = 1 := by
  rw [selectMRV_scan_eq]
  simp only [mrvScanRes]
  rw [h1]
  rw [if_neg (by omega)]
  rfl

/-- C8 witness: the first selection on exB3 has a one-candidate head
cell and its scan trace has length 1. -/
theorem C8_witness :
    0 < (initState exB3).empties.length ∧
    (candList (initState exB3).rows (initState exB3).cols (initState exB3).boxes
      ((initState exB3).empties.getD 0 (0, 0)).1
      ((initState exB3).empties.getD 0 (0, 0)).2).length = 1 ∧
    (selectMRV (initState exB3) 0).1.scan.length = 1 :=
  ⟨by decide, by decide, C8_singleton_scan (initState exB3) 0 (by decide) (by decide)⟩

/-- C4 counterexample: on the valid board exZero, the first MRV
selection scans a zero-candidate cell (count 0, hence count at most 1)
and still keeps scanning: the recorded trace has entries after the
first scanned low-count cell, refuting the claimed
stop-at-count-at-most-1 rule. -/
theorem C4_counterexample :
    ValidBoard exZero ∧ scanStopViol (selScan (stepAt exZero 0)) = true := by
  constructor
  · decide
  · decide

/-- C4 (amended): the scan stops exactly when the running best count
reaches 1 — no trace entry follows an entry whose running best count is
1; entries sit at consecutive frontier positions starting at k; and the
scan either ends with running best count 1 or covers the whole rest of
the empties array.  A scanned cell of count 0 lowers the running best
to 0 and therefore does not stop the scan. -/
theorem C4_amended_scan_stop (st : SState) (k : Nat) (hk : k < st.empties.length)
    (hhead : 1 < (candList st.rows st.cols st.boxes (st.empties.getD k (0, 0)).1
      (st.empties.getD k (0, 0)).2).length) :
    (∀ j, j + 1 < (selectMRV st k).1.scan.length →
      ((selectMRV st k).1.scan.getD j default).bestCount ≠ 1) ∧
    (∀ m, m < (selectMRV st k).1.scan.length →
      ((selectMRV st k).1.scan.getD m default).i = k + m) ∧
    ((selectMRV st k).1.scan.length = st.empties.length - k ∨
      ((selectMRV st k).1.scan.getD ((selectMRV st k).1.scan.length - 1)
        default).bestCount = 1) := by
  have hscan : (selectMRV st k).1.scan =
      (scanLoop st (List.range' (k + 1) (st.empties.length - (k + 1))) k
        (candList st.rows st.cols st.boxes (st.empties.getD k (0, 0)).1
          (st.empties.getD k (0, 0)).2).length
        [⟨k, (st.empties.getD k (0, 0)).1, (st.empties.getD k (0, 0)).2,
          (candList st.rows st.cols st.boxes (st.empties.getD k (0, 0)).1
            (st.empties.getD k (0, 0)).2).length, k,
          (candList st.rows st.cols st.boxes (st.empties.getD k (0, 0)).1
            (st.empties.getD k (0, 0)).2).length⟩]).2.2 := by
    rw [selectMRV_scan_eq]
    simp only [mrvScanRes]
    rw [if_pos hhead]
  rw [hscan]
  refine ⟨?_, ?_, ?_⟩
  · apply scanLoop_no_entry_after_one
    · intro j hj
      simp at hj
    · intro _
      rfl
    · omega
  · have hinit : ∀ m, m < ([⟨k, (st.empties.getD k (0, 0)).1, (st.empties.getD k (0, 0)).2,
        (candList st.rows st.cols st.boxes (st.empties.getD k (0, 0)).1
          (st.empties.getD k (0, 0)).2).length, k,
        (candList st.rows st.cols st.boxes (st.empties.getD k (0, 0)).1
          (st.empties.getD k (0, 0)).2).length⟩] : List MRVScanItem).length →
        (([⟨k, (st.empties.getD k (0, 0)).1, (st.empties.getD k (0, 0)).2,
          (candList st.rows st.cols st.boxes (st.empties.getD k (0, 0)).1
            (st.empties.getD k (0, 0)).2).length, k,
          (candList st.rows st.cols st.boxes (st.empties.getD k (0, 0)).1
            (st.empties.getD k (0, 0)).2).length⟩] : List MRVScanItem).getD m default).i =
          k + m := by
      intro m hm
      simp only [List.length_cons, List.length_nil] at hm
      have hm0 : m = 0 := by omega
      rw [hm0]
      rfl
    exact scanLoop_entry_idx st (st.empties.length - (k + 1)) k k _ _ hinit
  · rcases scanLoop_break_or_full st (List.range' (k + 1) (st.empties.length - (k + 1))) k
      (candList st.rows st.cols st.boxes (st.empties.getD k (0, 0)).1
        (st.empties.getD k (0, 0)).2).length
      [⟨k, (st.empties.getD k (0, 0)).1, (st.empties.getD k (0, 0)).2,
        (candList st.rows st.cols st.boxes (st.empties.getD k (0, 0)).1
          (st.empties.getD k (0, 0)).2).length, k,
        (candList st.rows st.cols st.boxes (st.empties.getD k (0, 0)).1
          (st.empties.getD k (0, 0)).2).length⟩] with h | h
    · left
      rw [h]
      simp only [List.length_cons, List.length_nil, List.length_range']
      omega
    · right
      exact h

/-- C4 amended witness: the first selection on exZero has head count
above one; its first trace entry carries a running best count other
than 1, its second entry sits at frontier position 1, and the trace
either covers the whole array or ends with best count 1. -/
theorem C4_amended_witness :
    (0 < (initState exZero).empties.length ∧
      1 < (candList (initState exZero).rows (initState exZero).cols
        (initState exZero).boxes
        ((initState exZero).empties.getD 0 (0, 0)).1
        ((initState exZero).empties.getD 0 (0, 0)).2).length) ∧
    ((selectMRV (initState exZero) 0).1.scan.getD 0 default).bestCount ≠ 1 ∧
    ((selectMRV (initState exZero) 0).1.scan.getD 1 default).i = 0 + 1 ∧
    ((selectMRV (initState exZero) 0).1.scan.length =
        (initState exZero).empties.length - 0 ∨
      ((selectMRV (initState exZero) 0).1.scan.getD
        ((selectMRV (initState exZero) 0).1.scan.length - 1) default).bestCount = 1) :=
  ⟨⟨by decide, by decide⟩,
    (C4_amended_scan_stop (initState exZero) 0 (by decide) (by decide)).1 0 (by decide),
    (C4_amended_scan_stop (initState exZero) 0 (by decide) (by decide)).2.1 1 (by decide),
    (C4_amended_scan_stop (initState exZero) 0 (by decide) (by decide)).2.2⟩

/-- C3 counterexample: in the run on the valid board exB3 the first
emitted selectCell step selects a cell with one candidate while the
undecided cell at frontier position 27 (cell (4,4)) has zero
candidates at that moment, so the selected count is not minimal over
the frontier suffix. -/
theorem C3_counterexample :
    ValidBoard exB3 ∧
    isSelect (stepAt exB3 0) = true ∧
    selIndex (stepAt exB3 0) = 0 ∧
    selCandLen (stepAt exB3 0) = 1 ∧
    27 < (stateAt exB3 0).empties.length ∧
    countAt (stateAt exB3 0) 27 = 0 ∧
    ¬(selCandLen (stepAt exB3 0) ≤ countAt (stateAt exB3 0) 27) := by
  refine ⟨by decide, ?_, ?_, ?_, ?_, ?_, ?_⟩ <;> decide

/-- C3 (amended): whenever the selected cell still has at least two
candidates (so the scan was not cut short by the early-stop rule), its
candidate count is minimal over the whole undecided frontier suffix at
the moment of selection.  When the selected count is 0 or 1 the
early-stopped scan may leave an unscanned zero-candidate cell behind. -/
theorem C3_amended_min (st : SState) (k : Nat) (hk : k < st.empties.length)
    (hsel : 2 ≤ (selectMRV st k).1.candidates.length) :
    ∀ i, k ≤ i → i < (selectMRV st k).2.empties.length →
      (selectMRV st k).1.candidates.length ≤ countAt (selectMRV st k).2 i := by
  obtain ⟨hbk, hblen⟩ := mrvScanRes_best_bounds st k hk
  have hfe : (selectMRV st k).2.empties = swapAt st.empties k (mrvScanRes st k).1 := by
    rw [selectMRV_state]
  have hfr : (selectMRV st k).2.rows = st.rows := by rw [selectMRV_state]
  have hfc : (selectMRV st k).2.cols = st.cols := by rw [selectMRV_state]
  have hfx : (selectMRV st k).2.boxes = st.boxes := by rw [selectMRV_state]
  have hcnt_sel : (selectMRV st k).1.candidates.length =
      countAt st (mrvScanRes st k).1 := by
    rw [selectMRV_candidates]
    have hrc := selectMRV_rc st k
    rw [swapAt_getD_k st.empties k _ hk] at hrc
    have ha : (selectMRV st k).1.r =
        (st.empties.getD (mrvScanRes st k).1 (0, 0)).1 := congrArg Prod.fst hrc
    have hb : (selectMRV st k).1.c =
        (st.empties.getD (mrvScanRes st k).1 (0, 0)).2 := congrArg Prod.snd hrc
    unfold countAt
    rw [ha, hb]
  by_cases hh : 1 < (candList st.rows st.cols st.boxes (st.empties.getD k (0, 0)).1
      (st.empties.getD k (0, 0)).2).length
  · have hres : mrvScanRes st k =
        scanLoop st (List.range' (k + 1) (st.empties.length - (k + 1))) k
          (candList st.rows st.cols st.boxes (st.empties.getD k (0, 0)).1
            (st.empties.getD k (0, 0)).2).length
          [⟨k, (st.empties.getD k (0, 0)).1, (st.empties.getD k (0, 0)).2,
            (candList st.rows st.cols st.boxes (st.empties.getD k (0, 0)).1
              (st.empties.getD k (0, 0)).2).length, k,
            (candList st.rows st.cols st.boxes (st.empties.getD k (0, 0)).1
              (st.empties.getD k (0, 0)).2).length⟩] := by
      simp only [mrvScanRes]
      rw [if_pos hh]
    have hc2 : (mrvScanRes st k).2.1 = countAt st (mrvScanRes st k).1 := by
      rw [hres]
      apply scanLoop_cnt_eq
      unfold countAt
      rfl
    have hselres : (selectMRV st k).1.candidates.length = (mrvScanRes st k).2.1 := by
      rw [hcnt_sel, hc2]
    have hne1 : (scanLoop st (List.range' (k + 1) (st.empties.length - (k + 1))) k
        (candList st.rows st.cols st.boxes (st.empties.getD k (0, 0)).1
          (st.empties.getD k (0, 0)).2).length
        [⟨k, (st.empties.getD k (0, 0)).1, (st.empties.getD k (0, 0)).2,
          (candList st.rows st.cols st.boxes (st.empties.getD k (0, 0)).1
            (st.empties.getD k (0, 0)).2).length, k,
          (candList st.rows st.cols st.boxes (st.empties.getD k (0, 0)).1
            (st.empties.getD k (0, 0)).2).length⟩]).2.1 ≠ 1 := by
      rw [← hres, ← hselres]
      omega
    obtain ⟨hlehead, hallscan⟩ := scanLoop_min st _ _ _ _ hne1
    rw [← hres] at hlehead hallscan
    intro i hki hilen
    rw [hfe, swapAt_length] at hilen
    have hcA : countAt (selectMRV st k).2 i =
        (candList st.rows st.cols st.boxes
          ((swapAt st.empties k (mrvScanRes st k).1).getD i (0, 0)).1
          ((swapAt st.empties k (mrvScanRes st k).1).getD i (0, 0)).2).length := by
      unfold countAt
      rw [hfr, hfc, hfx, hfe]
    rw [hcA]
    by_cases hik : i = k
    · rw [hik, swapAt_getD_k st.empties k _ hk]
      rw [hselres, hc2]
      unfold countAt
      exact le_refl _
    · by_cases hib : i = (mrvScanRes st k).1
      · rw [hib, swapAt_getD_best st.empties k _ hblen]
        rw [hselres]
        exact hlehead
      · rw [swapAt_getD_other st.empties k _ i hik hib]
        have hmem : i ∈ List.range' (k + 1) (st.empties.length - (k + 1)) := by
          rw [List.mem_range'_1]
          omega
        have := hallscan i hmem
        rw [hselres]
        unfold countAt at this
        exact this
  · exfalso
    have hbestk : (mrvScanRes st k).1 = k := by
      simp only [mrvScanRes]
      rw [if_neg hh]
    rw [hcnt_sel, hbestk] at hsel
    unfold countAt at hsel
    omega

/-- C3 amended witness: the first selection on exAlmost keeps 8
candidates, and that count is at most the count of the undecided cell
at frontier position 1 at that moment. -/
theorem C3_amended_witness :
    (0 < (initState exAlmost).empties.length ∧
      2 ≤ (selectMRV (initState exAlmost) 0).1.candidates.length ∧
      1 < (selectMRV (initState exAlmost) 0).2.empties.length) ∧
    (selectMRV (initState exAlmost) 0).1.candidates.length ≤
      countAt (selectMRV (initState exAlmost) 0).2 1 :=
  ⟨⟨by decide, by decide, by decide⟩,
    C3_amended_min (initState exAlmost) 0 (by decide) (by decide) 1 (by omega) (by decide)⟩

/-! Claim theorems: the search engine and the step protocol. -/

/-- C1: on a valid initial board, if the run of solveSudokuMRV emits a
solved step, then the returned completion board holds each digit 1..9
exactly once in every row, column and box, and agrees with the initial
board at every initially filled cell. -/
theorem C1_solved_correct (init : Board) (hv : ValidBoard init)
    (hs : SolverStep.solved ∈ stepsOf init) : SolvedBoardOK init (finalOf init) := by
  obtain ⟨T1, T2, T3, T4, T5⟩ := run_concl init hv
  have hsteps : stepsOf init =
      (dfs ((initState init).empties.length + 1) (initState init) 0).1.map Prod.fst := rfl
  have hfin : finalOf init =
      (dfs ((initState init).empties.length + 1) (initState init) 0).2.1.b := rfl
  by_cases hok : (dfs ((initState init).empties.length + 1) (initState init) 0).2.2 = true
  · obtain ⟨hinvL, _⟩ := T5 hok
    obtain ⟨hcomp, hagree⟩ := Inv_success_complete hinvL
    rw [hfin]
    exact ⟨counts_of_complete _ hcomp hinvL.consRows hinvL.consCols hinvL.consBoxes,
      fun r hr c hc hd => hagree r c hr hc hd⟩
  · obtain ⟨_, hnos⟩ := T4 (Bool.eq_false_iff.mpr hok)
    rw [hsteps] at hs
    exact absurd hs hnos

/-- C1 witness: solving the one-empty-cell board emits solved; digit 5
appears exactly once in row 0 of the result and the clue (0,1) is
unchanged. -/
theorem C1_witness :
    ValidBoard exOneEmpty ∧ SolverStep.solved ∈ stepsOf exOneEmpty ∧
    rowCount (finalOf exOneEmpty) 0 5 = 1 ∧
    getCell (finalOf exOneEmpty) 0 1 = getCell exOneEmpty 0 1 :=
  ⟨by decide, by decide,
    ((C1_solved_correct exOneEmpty (by decide) (by decide)).1 0 (by decide) 5 (by decide)
      (by decide)).1,
    (C1_solved_correct exOneEmpty (by decide) (by decide)).2 0 (by decide) 1 (by decide)
      (by decide)⟩

/-- C2 counterexample: on the valid unsolvable board exB3 the
generator finishes without emitting solved, yet its completion value is
the bare board exB3 itself — it carries no solved/unsolved indicator;
the consumer-side note is computed from the board contents alone. -/
theorem C2_counterexample :
    ValidBoard exB3 ∧ SolverStep.solved ∉ stepsOf exB3 ∧
    finalOf exB3 = exB3 ∧ completionNote (finalOf exB3) = "No solution" := by
  refine ⟨by decide, by decide, by decide, by decide⟩

/-- C2 (amended): the completion value of solveSudokuMRV is the final
board alone (the internal success flag is discarded); the outcome is
still recoverable, since on a valid board a solved step is emitted
exactly when the returned board passes the consumer test
every(ch != dot) used by stepOnce. -/
theorem C2_outcome_inferred (init : Board) (hv : ValidBoard init) :
    SolverStep.solved ∈ stepsOf init ↔ inferSolved (finalOf init) = true := by
  obtain ⟨T1, T2, T3, T4, T5⟩ := run_concl init hv
  have hsteps : stepsOf init =
      (dfs ((initState init).empties.length + 1) (initState init) 0).1.map Prod.fst := rfl
  have hfin : finalOf init =
      (dfs ((initState init).empties.length + 1) (initState init) 0).2.1.b := rfl
  constructor
  · intro hs
    by_cases hok : (dfs ((initState init).empties.length + 1) (initState init) 0).2.2 = true
    · obtain ⟨hinvL, _⟩ := T5 hok
      obtain ⟨hcomp, _⟩ := Inv_success_complete hinvL
      rw [hfin]
      exact inferSolved_of_complete hinvL.dims hcomp
    · obtain ⟨_, hnos⟩ := T4 (Bool.eq_false_iff.mpr hok)
      rw [hsteps] at hs
      exact absurd hs hnos
  · intro hinf
    by_cases hok : (dfs ((initState init).empties.length + 1) (initState init) 0).2.2 = true
    · obtain ⟨_, pre, hpre, _⟩ := T5 hok
      rw [hsteps, hpre]
      simp
    · exfalso
      obtain ⟨⟨R1, _, _, _⟩, _⟩ := T4 (Bool.eq_false_iff.mpr hok)
      have hfin2 : finalOf init = init := by rw [hfin, R1, initState_b]
      rw [hfin2] at hinf
      have hnd := complete_of_inferSolved hv.1 hinf
      have hemp : findEmpties init = [] := by
        rw [List.eq_nil_iff_forall_not_mem]
        intro rc hm
        have hmf := mem_findEmpties.mp hm
        rcases hv.2.1 rc.1 hmf.1 rc.2 hmf.2.1 with h | h
        · exact hnd rc.1 rc.2 hmf.1 hmf.2.1 h
        · rw [h] at hmf
          exact absurd hmf.2.2 (by simp)
      have hlen0 : (initState init).empties.length = 0 := by
        rw [initState_empties, hemp]
        rfl
      apply hok
      rw [hlen0]
      simp only [dfs]
      rw [if_pos hlen0.symm]

/-- C2 amended witness: on the one-empty board the equivalence holds at
a concrete input. -/
theorem C2_witness :
    ValidBoard exOneEmpty ∧
    (SolverStep.solved ∈ stepsOf exOneEmpty ↔ inferSolved (finalOf exOneEmpty) = true) :=
  ⟨by decide, C2_outcome_inferred exOneEmpty (by decide)⟩

/-- C5: on a valid initial board, at every emitted step the three usage
tables of the state at emission time are exactly the tables that
buildUsage rebuilds fresh from the working board at that moment. -/
theorem C5_usage_fresh (init : Board) (hv : ValidBoard init) :
    ∀ p ∈ traceOf init, buildUsage p.2.b = ⟨p.2.rows, p.2.cols, p.2.boxes⟩ := by
  obtain ⟨T1, _, _, _, _⟩ := run_concl init hv
  intro p hp
  exact T1 p hp

/-- C5 witness: at the first emitted step of the one-empty run the
usage tables equal the freshly rebuilt ones. -/
theorem C5_witness :
    ValidBoard exOneEmpty ∧
    buildUsage (stateAt exOneEmpty 0).b =
      ⟨(stateAt exOneEmpty 0).rows, (stateAt exOneEmpty 0).cols,
       (stateAt exOneEmpty 0).boxes⟩ :=
  ⟨by decide, C5_usage_fresh exOneEmpty (by decide) ((traceOf exOneEmpty).getD 0 default)
    (getD_mem _ 0 default (by decide))⟩

/-- C6: the place mutation of dfs immediately followed by the
backtrack mutation with the same arguments restores the whole solver
state, provided the cell was empty and the digit was placeable there —
exactly the situation in which dfs performs a placement. -/
theorem C6_place_unplace (st : SState) (r c d : Nat)
    (hcell : getCell st.b r c = '.')
    (hcp : canPlace st.rows st.cols st.boxes r c d = true) :
    unplaceOp (placeOp st r c d) r c d = st := by
  obtain ⟨h1, h2, h3⟩ := canPlace_parts hcp
  exact place_unplace_cancel st r c d hcell h1 h2 h3

/-- C6 witness: placing then unplacing digit 5 at the empty cell (0,0)
of the one-empty board restores the state exactly. -/
theorem C6_witness :
    getCell (initState exOneEmpty).b 0 0 = '.' ∧
    canPlace (initState exOneEmpty).rows (initState exOneEmpty).cols
      (initState exOneEmpty).boxes 0 0 5 = true ∧
    unplaceOp (placeOp (initState exOneEmpty) 0 0 5) 0 0 5 = initState exOneEmpty :=
  ⟨by decide, by decide, C6_place_unplace (initState exOneEmpty) 0 0 5 (by decide) (by decide)⟩

/-- C7: solveSudokuMRV is a pure function of its initial board — two
runs on the same board yield the identical ordered step sequence and
the identical completion board. -/
theorem C7_deterministic (b1 b2 : Board) (h : b1 = b2) :
    stepsOf b1 = stepsOf b2 ∧ finalOf b1 = finalOf b2 := by
  rw [h]
  exact ⟨rfl, rfl⟩

/-- C7 witness: two runs on the one-empty board coincide. -/
theorem C7_witness :
    stepsOf exOneEmpty = stepsOf exOneEmpty ∧ finalOf exOneEmpty = finalOf exOneEmpty :=
  C7_deterministic exOneEmpty exOneEmpty rfl

/-- C9: on a valid initial board whose search fails (no solved step is
emitted), the completion value is cell-for-cell the initial board:
every trial placement was undone, and the pure embedding never mutates
the input. -/
theorem C9_failure_restores (init : Board) (hv : ValidBoard init)
    (hf : SolverStep.solved ∉ stepsOf init) : finalOf init = init := by
  obtain ⟨_, _, _, T4, T5⟩ := run_concl init hv
  by_cases hok : (dfs ((initState init).empties.length + 1) (initState init) 0).2.2 = true
  · exfalso
    obtain ⟨_, pre, hpre, _⟩ := T5 hok
    apply hf
    show SolverStep.solved ∈
      (dfs ((initState init).empties.length + 1) (initState init) 0).1.map Prod.fst
    rw [hpre]
    simp
  · obtain ⟨⟨R1, _, _, _⟩, _⟩ := T4 (Bool.eq_false_iff.mpr hok)
    show (dfs ((initState init).empties.length + 1) (initState init) 0).2.1.b = init
    rw [R1, initState_b]

/-- C9 witness: the failed search on exB3 returns exB3 unchanged. -/
theorem C9_witness :
    ValidBoard exB3 ∧ SolverStep.solved ∉ stepsOf exB3 ∧ finalOf exB3 = exB3 :=
  ⟨by decide, by decide, C9_failure_restores exB3 (by decide) (by decide)⟩

/-- C10: in every step sequence emitted by solveSudokuMRV (any initial
board), the solved step occurs at most once, and when it occurs it is
the final step of the sequence. -/
theorem C10_solved_once_last (init : Board) :
    (stepsOf init).count SolverStep.solved ≤ 1 ∧
    (SolverStep.solved ∈ stepsOf init →
      ∃ pre, stepsOf init = pre ++ [SolverStep.solved] ∧ SolverStep.solved ∉ pre) := by
  obtain ⟨H1, H2⟩ := dfs_solved ((initState init).empties.length + 1) (initState init) 0
  have hsteps : stepsOf init =
      (dfs ((initState init).empties.length + 1) (initState init) 0).1.map Prod.fst := rfl
  by_cases hok : (dfs ((initState init).empties.length + 1) (initState init) 0).2.2 = true
  · obtain ⟨pre, h1, h2⟩ := H2 hok
    constructor
    · rw [hsteps, h1, List.count_append]
      have hz : pre.count SolverStep.solved = 0 := List.count_eq_zero.mpr h2
      rw [hz]
      simp
    · intro _
      exact ⟨pre, by rw [hsteps, h1], h2⟩
  · have hnos := H1 (Bool.eq_false_iff.mpr hok)
    constructor
    · rw [hsteps]
      have hz : ((dfs ((initState init).empties.length + 1) (initState init)
          0).1.map Prod.fst).count SolverStep.solved = 0 := List.count_eq_zero.mpr hnos
      omega
    · intro hm
      rw [hsteps] at hm
      exact absurd hm hnos

/-- C10 witness: the one-empty run emits solved, and it is the last
step, preceded by no other solved step. -/
theorem C10_witness :
    SolverStep.solved ∈ stepsOf exOneEmpty ∧
    ∃ pre, stepsOf exOneEmpty = pre ++ [SolverStep.solved] ∧ SolverStep.solved ∉ pre :=
  ⟨by decide, (C10_solved_once_last exOneEmpty).2 (by decide)⟩

end Sudoku
